import Mathlib

/-!
Verification development for the mdcode text-splicing engine.

The Go sources are shallowly embedded as follows.

* Byte sequences are modelled as `List Char` (documents here are ASCII/UTF-8
  text; no claim depends on sub-character byte layout).
* The region engine (`internal/region/region.go`) scans its documents with
  `(?m)`-multiline regular expressions whose patterns are anchored with `^` and
  terminated with `\r?\n`, and whose character classes (`[[:blank:]]`, the
  punctuation class `reSpec`, `\w`) never match a newline.  Consequently every
  match of such a pattern is exactly one newline-terminated line of the
  document, and `regexp.FindIndex` returns the first (leftmost) matching line.
  The embedding therefore splits a document into its lines (`splitLines`,
  each line keeping its terminating newline, with the final segment possibly
  unterminated) and models each pattern as an executable predicate on a single
  line, derived character class by character class from the pattern source.
* Go's `copy(dst[pos:], src)` builtin (used by `Replace` and `applyChanges`)
  is modelled by `listCopy`, which overwrites `min (len src) (len dst - pos)`
  elements of `dst` starting at `pos`.
* The Markdown parse of `Walk` is performed by the external goldmark library;
  `Walk` is modelled over its observable output: the list of fenced-code-block
  nodes (`FCB`, in document order, one "leaving" traversal event each, after
  the `transformCommentedCodeBlock` preprocessing), each carrying the optional
  info-string segment and the body line segments goldmark reports.  Likewise
  `parseMeta` (meta.go) delegates to the external `encoding/json` and `shlex`
  libraries; it is modelled as an abstract function `parseMetaF`, and the
  theorems hold for every such function.  The Go walker callback mutates
  `*Block` through a pointer; it is modelled as a function from the extracted
  block to the updated block (its possible error being Go's `error` return).
  Go `nil` byte-slice results are modelled as `none` or `[]` as noted at each
  definition.
-/

namespace Mdcode

/-- Character class `[[:blank:]]` of the Go regexps: space or horizontal tab. -/
def isBlank (c : Char) : Bool :=
  c = ' ' || c = '\t'

/-- Character class `reSpec` of region.go: the ASCII punctuation characters
listed in the pattern `[!"#$%&'()*+,\-./:;<=>?@[\\\]^_{|}~]` (the `%%` of the
Go source is `fmt.Sprintf` escaping for a literal `%`). -/
def isSpec (c : Char) : Bool :=
  ['!', '"', '#', '$', '%', '&', '\'', '(', ')', '*', '+', ',', '-', '.', '/',
   ':', ';', '<', '=', '>', '?', '@', '[', '\\', ']', '^', '_', '{', '|', '}',
   '~'].contains c

/-- Character class `\w` of Go regexps: ASCII letters, digits and underscore. -/
def isWordChar (c : Char) : Bool :=
  ('a' ≤ c && c ≤ 'z') || ('A' ≤ c && c ≤ 'Z') || ('0' ≤ c && c ≤ '9') || c = '_'

/-- Character class `\s` of Go regexps. -/
def isWs (c : Char) : Bool :=
  c = ' ' || c = '\t' || c = '\n' || c = '\x0c' || c = '\r'

/-- Splits a document into lines.  Every line except possibly the last ends
with its terminating `'\n'`; the concatenation of the lines is the document. -/
def splitLines : List Char → List (List Char)
  | [] => []
  | c :: rest =>
    match splitLines rest with
    | [] => [[c]]
    | l :: ls => if c = '\n' then [c] :: l :: ls else (c :: l) :: ls

/-- Total length of a list of lines. -/
def sumLen (ls : List (List Char)) : Nat :=
  (ls.map List.length).sum

/-- Embeds `regexp.FindIndex` for the line-anchored patterns of region.go:
scans the lines in order, keeping a running byte offset, and returns the byte
span of the first line satisfying the predicate. -/
def findFrom (p : List Char → Bool) : List (List Char) → Nat → Option (Nat × Nat)
  | [], _ => none
  | l :: ls, off => if p l then some (off, off + l.length) else findFrom p ls (off + l.length)

/-- Embeds Go's `copy(dst[pos:], src)`: overwrites elements of `dst` from
index `pos` on with elements of `src`, never growing `dst`.  (Go panics when
`pos > len dst`; all uses below are proved in bounds.) -/
def listCopy (dst : List Char) (pos : Nat) (src : List Char) : List Char :=
  dst.take pos ++ src.take (dst.length - pos) ++ dst.drop (pos + src.length)

/-- States that `l` is a single line: nonempty, with no newline before its
final character. -/
def IsLine (l : List Char) : Prop :=
  l ≠ [] ∧ ∀ c ∈ l.dropLast, c ≠ '\n'

/-- States that `l` is a newline-terminated single line. -/
def IsNLine (l : List Char) : Prop :=
  IsLine l ∧ l.getLast? = some '\n'

/-- Embeds goldmark's `text.Segment`: a byte span of the source. -/
structure Segment where
  start : Nat
  stop : Nat
deriving DecidableEq

/-- Embeds the relevant fields of goldmark's `ast.FencedCodeBlock`: the
optional info-string segment and the body line segments. -/
structure FCB where
  info : Option Segment
  lines : List Segment
deriving DecidableEq

/-- Embeds `mdcode.Block` (block.go); `meta` is `none` for Go's nil map. -/
structure Block (μ : Type) where
  lang : List Char
  meta : Option μ
  code : List Char
  startLine : Nat
  endLine : Nat

/-- Embeds `lineAt`: one plus the number of newline bytes strictly before
`offset`. -/
def lineAt (source : List Char) (offset : Nat) : Nat :=
  1 + (source.take offset).count '\n'

/-- Embeds `seg.Value(source)`, the bytes `source[seg.Start:seg.Stop]`. -/
def segValue (source : List Char) (seg : Segment) : List Char :=
  (source.take seg.stop).drop seg.start

/-- Embeds `extractCode`: the concatenation of the block's line segments. -/
def extractCode (source : List Char) (fcb : FCB) : List Char :=
  (fcb.lines.map (segValue source)).flatten

/-- Embeds the `startLine` computation of `extractLines` (the local variable
starts at Go's zero value 0, kept when neither branch assigns). -/
def extractStartLine (source : List Char) (fcb : FCB) : Nat :=
  match fcb.info with
  | some seg => lineAt source seg.start
  | none =>
    match fcb.lines with
    | [] => 0
    | l :: _ => lineAt source l.start - 1

/-- Embeds the `endLine` computation of `extractLines`. -/
def extractEndLine (source : List Char) (fcb : FCB) : Nat :=
  match fcb.lines.getLast? with
  | some last => lineAt source last.stop
  | none =>
    if 0 < extractStartLine source fcb then extractStartLine source fcb + 1 else 0

/-- Embeds `extractLines`. -/
def extractLines (source : List Char) (fcb : FCB) : Nat × Nat :=
  (extractStartLine source fcb, extractEndLine source fcb)

/-- Embeds `parseInfo` with its pattern `reInfo = \s*(\w+)\s*(.*)\s*` applied
by `FindSubmatch` to the info text (which lies within the fence line, so it
contains no newline): no word character anywhere means no match and the Go
code returns `("", nil, nil)`; otherwise the first capture is the maximal
word run starting at the first word character and the second capture is the
remainder after the following whitespace run, handed to `parseMeta`. -/
def parseInfo {ε μ : Type} (parseMetaF : List Char → Except ε μ)
    (text : List Char) : Except ε (List Char × Option μ) :=
  let r1 := text.dropWhile (fun c => !isWordChar c)
  if r1.isEmpty then .ok ([], none)
  else
    let lang := r1.takeWhile isWordChar
    let metaText := (r1.dropWhile isWordChar).dropWhile isWs
    match parseMetaF metaText with
    | .error e => .error e
    | .ok m => .ok (lang, some m)

/-- Embeds `extractInfo`: a block with no info string yields `("", nil, nil)`. -/
def extractInfo {ε μ : Type} (parseMetaF : List Char → Except ε μ)
    (source : List Char) (fcb : FCB) : Except ε (List Char × Option μ) :=
  match fcb.info with
  | none => .ok ([], none)
  | some seg => parseInfo parseMetaF (segValue source seg)

/-- Embeds `extractBlock`. -/
def extractBlock {ε μ : Type} (parseMetaF : List Char → Except ε μ)
    (source : List Char) (fcb : FCB) : Except ε (Block μ) :=
  match extractInfo parseMetaF source fcb with
  | .error e => .error e
  | .ok (lang, meta) =>
    let p := extractLines source fcb
    .ok ⟨lang, meta, extractCode source fcb, p.1, p.2⟩

/-- Span bounds and replacement bytes of one recorded change, i.e. the data
`applyChanges` reads from a `change` value: `bounds()` (precomputed, since
the underlying node does not change) and the block's final `Code`. -/
structure Edit where
  start : Nat
  stop : Nat
  code : List Char
deriving DecidableEq

/-- Embeds `change.sizeIncrement()` (Go `int` arithmetic, hence `Int`). -/
def sizeIncrement (e : Edit) : Int :=
  (e.code.length : Int) - ((e.stop : Int) - (e.start : Int))

/-- Embeds the copy loop of `applyChanges` over the preallocated result
buffer: for each edit, copy the gap `source[srcIdx:start]`, then the
replacement bytes, finally the tail `source[srcIdx:]`.  (Go's slicing panics
when an index precondition is violated; the embedding truncates instead, and
every theorem below assumes the `EditsOrdered` precondition, which the
document-order construction in `Walk` establishes.) -/
def applyLoop (source : List Char) : List Edit → List Char → Nat → Nat → List Char
  | [], res, srcIdx, resIdx => listCopy res resIdx (source.drop srcIdx)
  | e :: rest, res, srcIdx, resIdx =>
    let res1 := listCopy res resIdx ((source.take e.start).drop srcIdx)
    let resIdx1 := resIdx + (e.start - srcIdx)
    let res2 := listCopy res1 resIdx1 e.code
    applyLoop source rest res2 e.stop (resIdx1 + e.code.length)

/-- Embeds `applyChanges`: computes the final buffer size
`len(source) + Σ sizeIncrement`, allocates it zero-filled once, and runs the
copy loop. -/
def applyChanges (edits : List Edit) (source : List Char) : List Char :=
  let resSize : Int := edits.foldl (fun a e => a + sizeIncrement e) (source.length : Int)
  applyLoop source edits (List.replicate resSize.toNat (Char.ofNat 0)) 0 0

/-- Reference reassembly: the text before the first span, each replacement,
each gap between consecutive spans, and the tail after the last span. -/
def spliceSpec (source : List Char) : List Edit → Nat → List Char
  | [], idx => source.drop idx
  | e :: rest, idx => (source.take e.start).drop idx ++ e.code ++ spliceSpec source rest e.stop

/-- States that the edits are in document order, non-overlapping, and within
the source (the invariant the spec demands of `Change/Span` records). -/
def EditsOrdered (source : List Char) : Nat → List Edit → Prop
  | _, [] => True
  | idx, e :: rest =>
    idx ≤ e.start ∧ e.start ≤ e.stop ∧ e.stop ≤ source.length ∧
      EditsOrdered source e.stop rest

/-- Embeds `change.bounds()`: the span of the body lines, or the empty span
one byte past the info segment for a block with no body lines.  (For a block
with neither body lines nor an info string the Go code dereferences a nil
`Info` pointer and panics; that case is modelled as the zero span and is not
relied upon by any theorem.) -/
def bounds (fcb : FCB) : Nat × Nat :=
  match fcb.lines.head?, fcb.lines.getLast? with
  | some l0, some ln => (l0.start, ln.stop)
  | _, _ =>
    match fcb.info with
    | some seg => (seg.stop + 1, seg.stop + 1)
    | none => (0, 0)

/-- Edit record derived from one recorded change. -/
def changeEdit {μ : Type} (c : FCB × Block μ) : Edit :=
  ⟨(bounds c.1).1, (bounds c.1).2, c.2.code⟩

/-- Embeds the traversal loop of `Walk` over the fenced-block nodes: extract
the block (an extraction error aborts `ast.Walk`), save the extracted `Code`,
run the walker (its error aborts), record a change when the code bytes
differ, and after the traversal either report no modification or apply the
recorded changes. -/
def walkGo {ε μ : Type} (parseMetaF : List Char → Except ε μ) (source : List Char)
    (walker : Block μ → Except ε (Block μ)) :
    List FCB → List (FCB × Block μ) → Except ε (Bool × Option (List Char))
  | [], changes =>
    if changes.isEmpty then .ok (false, none)
    else .ok (true, some (applyChanges (changes.map changeEdit) source))
  | fcb :: rest, changes =>
    match extractBlock parseMetaF source fcb with
    | .error e => .error e
    | .ok block =>
      let code := block.code
      match walker block with
      | .error e => .error e
      | .ok block2 =>
        if code = block2.code then walkGo parseMetaF source walker rest changes
        else walkGo parseMetaF source walker rest (changes ++ [(fcb, block2)])

/-- Embeds `Walk` (the Go `(false, nil, err)` result is the `.error` case,
and `(false, nil, nil)` is `.ok (false, none)`). -/
def Walk {ε μ : Type} (parseMetaF : List Char → Except ε μ) (source : List Char)
    (fcbs : List FCB) (walker : Block μ → Except ε (Block μ)) :
    Except ε (Bool × Option (List Char)) :=
  walkGo parseMetaF source walker fcbs []

/-- States that the segments of a list are in order and non-overlapping from
a lower bound on (what goldmark guarantees for the line segments of a parsed
node). -/
def SegsOrdered : Nat → List Segment → Prop
  | _, [] => True
  | lo, s :: rest => lo ≤ s.start ∧ s.start ≤ s.stop ∧ SegsOrdered s.stop rest

/-- Well-formedness of a fenced-code-block node as produced by the parser or
by `transformCommentedCodeBlock`: the info segment (when present) precedes
the ordered body line segments. -/
def FCBWf (fcb : FCB) : Prop :=
  match fcb.info with
  | some seg => seg.start ≤ seg.stop ∧ SegsOrdered seg.stop fcb.lines
  | none => SegsOrdered 0 fcb.lines

/-- Slice-header model of the `Code` field, for the aliasing behaviour of the
change-detection step of `Walk`: a Go byte slice value is a header holding a
reference into a store of backing arrays, and `code := block.Code` copies the
header, not the bytes. -/
structure SliceRef where
  ref : Nat
deriving DecidableEq

/-- Store of slice backing arrays, indexed by reference. -/
abbrev Store : Type := List (List Char)

/-- Byte contents a slice header designates. -/
def deref (st : Store) (r : SliceRef) : List Char :=
  List.getD st r.ref []

/-- Actions a walker can take on `block.Code`: write bytes through the
existing slice (in-place mutation of the backing array), or rebind the field
to a freshly allocated slice with the given contents. -/
inductive CodeAct where
  | mutate (f : List Char → List Char) : CodeAct
  | rebind (v : List Char) : CodeAct

/-- Embeds one iteration of the change-detection step of `Walk` at pointer
level: `code := block.Code` saves the slice header, the walker acts on
`block.Code`, and `bytes.Equal(code, block.Code)` compares the two headers'
contents afterwards.  Returns the updated store, the header `block.Code`
holds afterwards, and whether a change is recorded. -/
def detectStep (st : Store) (codeRef : SliceRef) (act : CodeAct) :
    Store × SliceRef × Bool :=
  let saved := codeRef
  match act with
  | .mutate f =>
    let st2 := List.set st codeRef.ref (f (deref st codeRef))
    (st2, codeRef, !(deref st2 saved == deref st2 codeRef))
  | .rebind v =>
    let st2 := st ++ [v]
    let newRef : SliceRef := ⟨List.length st⟩
    (st2, newRef, !(deref st2 saved == deref st2 newRef))

end Mdcode

/-!
Embedding of `internal/region/region.go`.

Marker grammar (from the constants `regionFormat`, `namedendFormat`, `reStart`
and `reEnd`): a marker line is
`^[[:blank:]]* reSpec+ [[:blank:]]* KW [[:blank:]]+ NAME tail` for the named
forms (`KW` being `#region` or `#endregion`, `NAME` either the quoted region
name or `\w+`), and `^[[:blank:]]* reSpec+ [[:blank:]]* #endregion tail` for
the anonymous end marker, where `tail` is `[[:blank:]]* reSpec* [[:blank:]]*
\r?\n`.  None of the classes involved matches `'\n'`, and the pattern both
starts at a line boundary (`(?m)^`) and consumes the terminating newline, so
a regexp match is always exactly one newline-terminated document line; the
matchers below decide whether one such line matches.  Note that since
`#region`/`#endregion` begin with `#`, which itself belongs to `reSpec`, the
keyword may either follow the (maximal) punctuation run after a blank run, or
overlap the last `#` of that punctuation run; both regex alternatives are
covered below and are mutually exclusive on any one line. -/

namespace Region

open Mdcode

/-- Keyword of region-start markers. -/
def regionKw : List Char := "#region".toList

/-- Keyword of region-end markers. -/
def endregionKw : List Char := "#endregion".toList

/-- Decides the trailing pattern `[[:blank:]]* reSpec* [[:blank:]]* \r?\n`
against the rest of a line (newline included).  Blank and punctuation classes
are disjoint and match neither `'\r'` nor `'\n'`, so greedy left-to-right
consumption is complete. -/
def tailOk (r : List Char) : Bool :=
  let u := ((r.dropWhile isBlank).dropWhile isSpec).dropWhile isBlank
  u == ['\n'] || u == ['\r', '\n']

/-- Decides the line prefix `^[[:blank:]]* reSpec+ [[:blank:]]* KW` and
returns the remainder of the line after the keyword.  The second branch
covers the regexp alternative in which the keyword's leading `#` is the last
character consumed by `reSpec+` (so the run must have length at least 2 and
no blank separates it from the keyword's tail). -/
def matchMarker (kw : List Char) (l : List Char) : Option (List Char) :=
  let r := l.dropWhile isBlank
  let p := r.takeWhile isSpec
  let s := r.dropWhile isSpec
  if p.isEmpty then none
  else if (s.takeWhile isBlank).isEmpty then
    if 2 ≤ p.length ∧ p.getLast? = kw.head? ∧ (kw.drop 1).isPrefixOf s then
      some (s.drop (kw.length - 1))
    else none
  else
    let s2 := s.dropWhile isBlank
    if kw.isPrefixOf s2 then some (s2.drop kw.length) else none

/-- Decides `[[:blank:]]+ NAME tail` for a literal name (the `%s` of
`regionFormat`/`namedendFormat` after `regexp.QuoteMeta`): some nonempty
prefix of the leading blank run is consumed by `[[:blank:]]+`, immediately
followed by the literal name and a valid tail. -/
def namedTail (nm : List Char) (rest : List Char) : Bool :=
  let k := (rest.takeWhile isBlank).length
  (List.range k).any (fun i =>
    nm.isPrefixOf (rest.drop (i + 1)) && tailOk (rest.drop (i + 1 + nm.length)))

/-- Decides `[[:blank:]]+ \w+ tail` (the name form of `reStart`).  Word
characters are disjoint from blanks and from every character `tail` may start
with, so maximal-munch consumption is complete. -/
def anyNameTail (rest : List Char) : Bool :=
  !(rest.takeWhile isBlank).isEmpty &&
    (let r1 := rest.dropWhile isBlank
     !(r1.takeWhile isWordChar).isEmpty && tailOk (r1.dropWhile isWordChar))

/-- Decides one line against the named marker pattern built by
`fmt.Sprintf(format, regexp.QuoteMeta(name))` in region.go. -/
def matchNamed (kw nm l : List Char) : Bool :=
  match matchMarker kw l with
  | none => false
  | some rest => namedTail nm rest

/-- Decides one line against `reStart` (a `#region` marker with any `\w+`
name). -/
def matchStartAny (l : List Char) : Bool :=
  match matchMarker regionKw l with
  | none => false
  | some rest => anyNameTail rest

/-- Decides one line against `reEnd` (an anonymous `#endregion` marker — the
pattern has no name part, so a named end line does not match). -/
def matchEndAnon (l : List Char) : Bool :=
  match matchMarker endregionKw l with
  | none => false
  | some rest => tailOk rest

/-- Decides one line against the shape of a named `#endregion \w+` marker
(there is no such compiled pattern in region.go; this predicate only serves
to state claims about named end-marker lines). -/
def matchEndAnyName (l : List Char) : Bool :=
  match matchMarker endregionKw l with
  | none => false
  | some rest => anyNameTail rest

/-- Characters escaped by Go's `regexp.QuoteMeta`. -/
def isSpecialRe (c : Char) : Bool :=
  ['\\', '.', '+', '*', '?', '(', ')', '|', '[', ']', '{', '}', '^', '$'].contains c

/-- Rune-level view of `regexp.QuoteMeta` used by the matching layer once a
pattern has compiled: a backslash before every regexp special character.
The byte-accurate embedding of `QuoteMeta`, which also covers names that
are not valid UTF-8, is `quoteMetaBytes` below; on valid UTF-8 input the
two agree because every special byte is ASCII. -/
def quoteMeta (s : List Char) : List Char :=
  s.flatMap (fun c => if isSpecialRe c then ['\\', c] else [c])

/-- Embeds the fallible part of `regexp.Compile` for the patterns of
region.go: the surrounding format string is fixed and valid, so compilation
succeeds exactly when the text substituted for `%s` parses as a plain literal
sequence — every special character escaped, every escape applied to a
special character. -/
def validInsert : List Char → Bool
  | [] => true
  | ['\\'] => false
  | '\\' :: d :: rest2 => isSpecialRe d && validInsert rest2
  | c :: rest => !isSpecialRe c && validInsert rest

/-- Literal character sequence denoted by a valid inserted pattern fragment
(escapes removed). -/
def decodeInsert : List Char → List Char
  | [] => []
  | ['\\'] => []
  | '\\' :: d :: rest2 => d :: decodeInsert rest2
  | c :: rest => c :: decodeInsert rest

/-- Error values of the region engine: a `regexp.Compile` failure surfaced by
`marker`, or the sentinel `ErrMissingEndregion` of `Outline`. -/
inductive Err where
  | badPattern : Err
  | missingEndregion : Err
deriving DecidableEq

/-- Rune-level view of `marker(format, name)`: quotes the name, checks the
inserted fragment (see `validInsert`), and on success yields the line
matcher for the denoted literal name.  Over already-decoded scalar
sequences this check always passes; the genuine failure mode of
`regexp.Compile` — a name whose bytes are not valid UTF-8 — is modelled
byte-accurately by `compileB` and `findRegionB` below. -/
def marker (kw : List Char) (name : List Char) : Except Err (List Char → Bool) :=
  let q := quoteMeta name
  if validInsert q then .ok (matchNamed kw (decodeInsert q)) else .error .badPattern

/-- Embeds `findRegion`: finds the first `#region <name>` marker line, then
the first named `#endregion <name>` line after it, falling back to the first
anonymous `#endregion` line.  Returns `none` for Go's `(false, 0, 0, nil)`
and `some (begin, end)` for a found region, where `begin` is the byte offset
just after the begin-marker line and `end` the offset of the start of the
end-marker line. -/
def findRegion (source : List Char) (name : List Char) : Except Err (Option (Nat × Nat)) :=
  match marker regionKw name with
  | .error e => .error e
  | .ok reBegin =>
    match findFrom reBegin (splitLines source) 0 with
    | none => .ok none
    | some (_, idxBegin) =>
      match marker endregionKw name with
      | .error e => .error e
      | .ok namedEnd =>
        match findFrom namedEnd (splitLines (source.drop idxBegin)) 0 with
        | some (es, _) => .ok (some (idxBegin, idxBegin + es))
        | none =>
          match findFrom matchEndAnon (splitLines (source.drop idxBegin)) 0 with
          | some (es, _) => .ok (some (idxBegin, idxBegin + es))
          | none => .ok none

/-- Embeds `Read`: the bytes strictly between the begin-marker line and the
end-marker line, plus the found flag.  Go's not-found result `(nil, false)`
is modelled as `([], false)`. -/
def Read (source name : List Char) : Except Err (List Char × Bool) :=
  match findRegion source name with
  | .error e => .error e
  | .ok none => .ok ([], false)
  | .ok (some (b, e)) => .ok ((source.take e).drop b, true)

/-- Embeds `Replace`: allocates a buffer of size
`len(source) - (end - begin) + len(value)` and fills it with the three
`copy` calls of the Go source.  Go's not-found result `(nil, false)` is
modelled as `([], false)`. -/
def Replace (source name value : List Char) : Except Err (List Char × Bool) :=
  match findRegion source name with
  | .error e => .error e
  | .ok none => .ok ([], false)
  | .ok (some (b, e)) =>
    let res0 := List.replicate (source.length - (e - b) + value.length) (Char.ofNat 0)
    let res1 := listCopy res0 0 (source.take b)
    let res2 := listCopy res1 b value
    let res3 := listCopy res2 (b + value.length) (source.drop e)
    .ok (res3, true)

/-- Embeds the scanning loop of `Outline` line by line.  In mode `false` the
loop is searching for the next `reStart` line (every line up to and including
it is kept); in mode `true` a region is open and lines are dropped until the
next `reEnd` line, which is kept.  Running out of input with a region open is
the `ErrMissingEndregion` case; Go's `idx` always sits at a line boundary, so
the two `FindIndex` calls of the loop body are exactly this scan. -/
def outlineScan : Bool → List (List Char) → Except Err (List (List Char) × Bool)
  | false, [] => .ok ([], false)
  | false, l :: ls =>
    if matchStartAny l then
      match outlineScan true ls with
      | .error e => .error e
      | .ok (t, _) => .ok (l :: t, true)
    else
      match outlineScan false ls with
      | .error e => .error e
      | .ok (t, found) => .ok (l :: t, found)
  | true, [] => .error .missingEndregion
  | true, l :: ls =>
    if matchEndAnon l then
      match outlineScan false ls with
      | .error e => .error e
      | .ok (t, _) => .ok (l :: t, true)
    else
      outlineScan true ls

/-- Embeds `Outline`: strips the body of every region, keeping the marker
lines, and reports whether any region was found. -/
def Outline (source : List Char) : Except Err (List Char × Bool) :=
  match outlineScan false (splitLines source) with
  | .error e => .error e
  | .ok (ls, found) => .ok (ls.flatten, found)

/-- Embeds the sentinel `ErrMissingEndregion`. -/
def ErrMissingEndregion : Err := .missingEndregion

/-- Bytes escaped by Go `regexp.QuoteMeta`, the set initialised into
`specialBytes` in regexp.go: backslash, dot, plus, star, question mark, the
parentheses, pipe, the square brackets, the curly brackets, caret and
dollar. -/
def specialByte (b : Nat) : Bool :=
  decide (b = 92 ∨ b = 46 ∨ b = 43 ∨ b = 42 ∨ b = 63 ∨ b = 40 ∨ b = 41 ∨
    b = 124 ∨ b = 91 ∨ b = 93 ∨ b = 123 ∨ b = 125 ∨ b = 94 ∨ b = 36)

/-- Embeds `regexp.QuoteMeta` exactly as Go executes it: a byte-wise loop
that writes a backslash before every special byte and passes every other
byte through unchanged — including the bytes of invalid UTF-8 sequences,
which therefore reach the compiled pattern unprotected. -/
def quoteMetaBytes : List Nat → List Nat
  | [] => []
  | b :: r =>
    if specialByte b then 92 :: b :: quoteMetaBytes r else b :: quoteMetaBytes r

/-- Continuation-byte test of Go's `unicode/utf8` decoder. -/
def utf8Cont (b : Nat) : Bool := decide (128 ≤ b ∧ b ≤ 191)

/-- Acceptance of Go's `utf8.DecodeRune` over a whole byte string: ASCII
bytes stand alone; 2-byte sequences have lead C2..DF; 3-byte sequences have
lead E0..EF with the first continuation restricted for E0 (no overlong) and
ED (no surrogates); 4-byte sequences have lead F0..F4 with the first
continuation restricted for F0 (no overlong) and F4 (maximum U+10FFFF).
The regexp parser (`regexp/syntax.Parse`) reads the pattern rune by rune
with this decoder and fails with `ErrInvalidUTF8` on the first invalid
sequence, so a pattern compiles only if this predicate accepts it. -/
def utf8Valid : List Nat → Bool
  | [] => true
  | b :: rest =>
    if b ≤ 127 then utf8Valid rest
    else match rest with
    | [] => false
    | c1 :: rest1 =>
      if 194 ≤ b ∧ b ≤ 223 then utf8Cont c1 && utf8Valid rest1
      else match rest1 with
      | [] => false
      | c2 :: rest2 =>
        if b = 224 then decide (160 ≤ c1 ∧ c1 ≤ 191) && utf8Cont c2 && utf8Valid rest2
        else if 225 ≤ b ∧ b ≤ 236 then utf8Cont c1 && utf8Cont c2 && utf8Valid rest2
        else if b = 237 then decide (128 ≤ c1 ∧ c1 ≤ 159) && utf8Cont c2 && utf8Valid rest2
        else if 238 ≤ b ∧ b ≤ 239 then utf8Cont c1 && utf8Cont c2 && utf8Valid rest2
        else match rest2 with
        | [] => false
        | c3 :: rest3 =>
          if b = 240 then decide (144 ≤ c1 ∧ c1 ≤ 191) && utf8Cont c2 && utf8Cont c3 && utf8Valid rest3
          else if 241 ≤ b ∧ b ≤ 243 then utf8Cont c1 && utf8Cont c2 && utf8Cont c3 && utf8Valid rest3
          else if b = 244 then decide (128 ≤ c1 ∧ c1 ≤ 143) && utf8Cont c2 && utf8Cont c3 && utf8Valid rest3
          else false

/-- Rune sequence Go's `utf8.DecodeRune` loop yields for a byte string:
each valid sequence yields its code point, each invalid sequence consumes
one byte and yields U+FFFD.  The fuel argument (one unit per decoded or
skipped rune, so at most one per input byte) makes the recursion structural;
`utf8Dec` below supplies enough fuel. -/
def utf8DecF : Nat → List Nat → List Char
  | _, [] => []
  | 0, _ :: _ => []
  | fuel + 1, b :: rest =>
    if b ≤ 127 then Char.ofNat b :: utf8DecF fuel rest
    else match rest with
    | [] => [Char.ofNat 65533]
    | c1 :: rest1 =>
      if 194 ≤ b ∧ b ≤ 223 then
        if utf8Cont c1 then
          Char.ofNat ((b - 192) * 64 + (c1 - 128)) :: utf8DecF fuel rest1
        else Char.ofNat 65533 :: utf8DecF fuel rest
      else match rest1 with
      | [] => Char.ofNat 65533 :: utf8DecF fuel rest
      | c2 :: rest2 =>
        if b = 224 then
          if decide (160 ≤ c1 ∧ c1 ≤ 191) && utf8Cont c2 then
            Char.ofNat ((b - 224) * 4096 + (c1 - 128) * 64 + (c2 - 128)) :: utf8DecF fuel rest2
          else Char.ofNat 65533 :: utf8DecF fuel rest
        else if 225 ≤ b ∧ b ≤ 236 then
          if utf8Cont c1 && utf8Cont c2 then
            Char.ofNat ((b - 224) * 4096 + (c1 - 128) * 64 + (c2 - 128)) :: utf8DecF fuel rest2
          else Char.ofNat 65533 :: utf8DecF fuel rest
        else if b = 237 then
          if decide (128 ≤ c1 ∧ c1 ≤ 159) && utf8Cont c2 then
            Char.ofNat ((b - 224) * 4096 + (c1 - 128) * 64 + (c2 - 128)) :: utf8DecF fuel rest2
          else Char.ofNat 65533 :: utf8DecF fuel rest
        else if 238 ≤ b ∧ b ≤ 239 then
          if utf8Cont c1 && utf8Cont c2 then
            Char.ofNat ((b - 224) * 4096 + (c1 - 128) * 64 + (c2 - 128)) :: utf8DecF fuel rest2
          else Char.ofNat 65533 :: utf8DecF fuel rest
        else match rest2 with
        | [] => Char.ofNat 65533 :: utf8DecF fuel rest
        | c3 :: rest3 =>
          if b = 240 then
            if decide (144 ≤ c1 ∧ c1 ≤ 191) && utf8Cont c2 && utf8Cont c3 then
              Char.ofNat ((b - 240) * 262144 + (c1 - 128) * 4096 + (c2 - 128) * 64 +
                (c3 - 128)) :: utf8DecF fuel rest3
            else Char.ofNat 65533 :: utf8DecF fuel rest
          else if 241 ≤ b ∧ b ≤ 243 then
            if utf8Cont c1 && utf8Cont c2 && utf8Cont c3 then
              Char.ofNat ((b - 240) * 262144 + (c1 - 128) * 4096 + (c2 - 128) * 64 +
                (c3 - 128)) :: utf8DecF fuel rest3
            else Char.ofNat 65533 :: utf8DecF fuel rest
          else if b = 244 then
            if decide (128 ≤ c1 ∧ c1 ≤ 143) && utf8Cont c2 && utf8Cont c3 then
              Char.ofNat ((b - 240) * 262144 + (c1 - 128) * 4096 + (c2 - 128) * 64 +
                (c3 - 128)) :: utf8DecF fuel rest3
            else Char.ofNat 65533 :: utf8DecF fuel rest
          else Char.ofNat 65533 :: utf8DecF fuel rest

/-- Rune sequence of a Go byte string (see `utf8DecF`). -/
def utf8Dec (bs : List Nat) : List Char := utf8DecF bs.length bs

/-- Bytes of `fmt.Sprintf(regionFormat, q)` before the inserted quoted name:
the text of the Go pattern up to and including the `[[:blank:]]+` that
precedes the `%s` verb, with the doubled percent of `reSpec` collapsed as
`Sprintf` emits it.  All bytes are ASCII. -/
def regionPrefixBytes : List Nat :=
  [40, 63, 109, 41, 94, 91, 91, 58, 98, 108, 97, 110, 107, 58, 93, 93,
   42, 91, 33, 34, 35, 36, 37, 38, 39, 40, 41, 42, 43, 44, 92, 45, 46,
   47, 58, 59, 60, 61, 62, 63, 64, 91, 92, 92, 92, 93, 94, 95, 123, 124,
   125, 126, 93, 43, 91, 91, 58, 98, 108, 97, 110, 107, 58, 93, 93, 42,
   35, 114, 101, 103, 105, 111, 110, 91, 91, 58, 98, 108, 97, 110, 107,
   58, 93, 93, 43]

/-- Bytes of `fmt.Sprintf(namedendFormat, q)` before the inserted quoted
name (as `regionPrefixBytes`, with `#endregion` in place of `#region`). -/
def namedendPrefixBytes : List Nat :=
  [40, 63, 109, 41, 94, 91, 91, 58, 98, 108, 97, 110, 107, 58, 93, 93,
   42, 91, 33, 34, 35, 36, 37, 38, 39, 40, 41, 42, 43, 44, 92, 45, 46,
   47, 58, 59, 60, 61, 62, 63, 64, 91, 92, 92, 92, 93, 94, 95, 123, 124,
   125, 126, 93, 43, 91, 91, 58, 98, 108, 97, 110, 107, 58, 93, 93, 42,
   35, 101, 110, 100, 114, 101, 103, 105, 111, 110, 91, 91, 58, 98, 108,
   97, 110, 107, 58, 93, 93, 43]

/-- Bytes of both marker formats after the inserted quoted name:
`[[:blank:]]*`, the `reSpec` class, `*[[:blank:]]*` and the escaped
carriage-return/newline tail.  All bytes are ASCII. -/
def markerSuffixBytes : List Nat :=
  [91, 91, 58, 98, 108, 97, 110, 107, 58, 93, 93, 42, 91, 33, 34, 35, 36,
   37, 38, 39, 40, 41, 42, 43, 44, 92, 45, 46, 47, 58, 59, 60, 61, 62,
   63, 64, 91, 92, 92, 92, 93, 94, 95, 123, 124, 125, 126, 93, 42, 91,
   91, 58, 98, 108, 97, 110, 107, 58, 93, 93, 42, 92, 114, 63, 92, 110]

/-- Embeds the `regexp.Compile` call of `marker` byte-accurately: the
pattern is the ASCII format skeleton with `QuoteMeta(name)` substituted for
the `%s` verb.  The quoted insert is a sequence of plain literals and
escaped punctuation, so the skeleton stays syntactically well formed and
the one way compilation can fail is the parser's UTF-8 check rejecting the
pattern bytes (`ErrInvalidUTF8`), surfaced here as `badPattern`. -/
def compileB (pre : List Nat) (nameB : List Nat) : Except Err Unit :=
  if utf8Valid (pre ++ quoteMetaBytes nameB ++ markerSuffixBytes) then .ok ()
  else .error .badPattern

/-- Embeds `findRegion` over a Go byte-string name.  The two `marker` calls
compile the begin and the named-end pattern; both insert the same quoted
name between all-ASCII skeleton bytes, so they succeed or fail together and
hoisting the second compile before the matching preserves Go's behaviour.
On success the matching layer sees the pattern's runes, i.e. the decoded
name. -/
def findRegionB (source : List Char) (nameB : List Nat) :
    Except Err (Option (Nat × Nat)) :=
  match compileB regionPrefixBytes nameB with
  | .error e => .error e
  | .ok _ =>
    match compileB namedendPrefixBytes nameB with
    | .error e => .error e
    | .ok _ => findRegion source (utf8Dec nameB)

/-- Embeds `Read` over a Go byte-string name (see `findRegionB`). -/
def ReadB (source : List Char) (nameB : List Nat) : Except Err (List Char × Bool) :=
  match findRegionB source nameB with
  | .error e => .error e
  | .ok none => .ok ([], false)
  | .ok (some (b, e)) => .ok ((source.take e).drop b, true)

/-- Embeds `Replace` over a Go byte-string name (see `findRegionB`). -/
def ReplaceB (source : List Char) (nameB : List Nat) (value : List Char) :
    Except Err (List Char × Bool) :=
  match findRegionB source nameB with
  | .error e => .error e
  | .ok none => .ok ([], false)
  | .ok (some (b, e)) =>
    let res0 := List.replicate (source.length - (e - b) + value.length) (Char.ofNat 0)
    let res1 := listCopy res0 0 (source.take b)
    let res2 := listCopy res1 b value
    let res3 := listCopy res2 (b + value.length) (source.drop e)
    .ok (res3, true)

end Region

/-! Supporting lemmas. -/

namespace Mdcode

theorem listCopy_length (dst : List Char) (pos : Nat) (src : List Char) :
    (listCopy dst pos src).length = dst.length := by
  simp only [listCopy, List.length_append, List.length_take, List.length_drop]
  omega

theorem listCopy_of_fits (dst : List Char) (pos : Nat) (src : List Char)
    (h : pos + src.length ≤ dst.length) :
    listCopy dst pos src = dst.take pos ++ src ++ dst.drop (pos + src.length) := by
  unfold listCopy
  rw [List.take_of_length_le (show src.length ≤ dst.length - pos by omega)]

theorem splitLines_join (s : List Char) : (splitLines s).flatten = s := by
  induction s with
  | nil => rfl
  | cons c rest ih =>
    unfold splitLines
    rcases h : splitLines rest with _ | ⟨l, ls⟩
    · simp only [h] at ih
      simp [← ih]
    · simp only [h] at ih
      by_cases hc : c = '\n' <;> simp [hc, ← ih]

theorem splitLines_eq_nil (s : List Char) : splitLines s = [] ↔ s = [] := by
  constructor
  · intro h
    have := splitLines_join s
    rw [h] at this
    simpa using this.symm
  · intro h; subst h; rfl

theorem sumLen_splitLines (s : List Char) : sumLen (splitLines s) = s.length := by
  have := congrArg List.length (splitLines_join s)
  simpa [sumLen, List.length_flatten] using this

theorem sumLen_append (a b : List (List Char)) :
    sumLen (a ++ b) = sumLen a + sumLen b := by
  simp [sumLen]

theorem findFrom_eq_none {p : List Char → Bool} {ls : List (List Char)} {off : Nat} :
    findFrom p ls off = none ↔ ∀ l ∈ ls, p l = false := by
  induction ls generalizing off with
  | nil => simp [findFrom]
  | cons l ls ih =>
    by_cases h : p l <;> simp [findFrom, h, ih]

theorem findFrom_some {p : List Char → Bool} {ls : List (List Char)} {off s t : Nat}
    (h : findFrom p ls off = some (s, t)) :
    ∃ A l B, ls = A ++ l :: B ∧ (∀ x ∈ A, p x = false) ∧ p l = true ∧
      s = off + sumLen A ∧ t = s + l.length := by
  induction ls generalizing off with
  | nil => simp [findFrom] at h
  | cons l ls ih =>
    by_cases hp : p l
    · simp only [findFrom, hp, if_true] at h
      obtain ⟨h1, h2⟩ := Prod.mk.injEq .. ▸ Option.some.injEq .. ▸ h
      exact ⟨[], l, ls, by simp, by simp, hp, by simp [sumLen, ← h1],
        by simp [← h1, ← h2]⟩
    · simp only [findFrom, hp, Bool.false_eq_true, if_false] at h
      obtain ⟨A, x, B, hls, hA, hx, hs, ht⟩ := ih h
      refine ⟨l :: A, x, B, by simp [hls], ?_, hx, ?_, ht⟩
      · intro y hy
        rcases List.mem_cons.mp hy with hy | hy
        · rw [hy]
          exact Bool.not_eq_true _ ▸ hp
        · exact hA y hy
      · simp [sumLen] at hs ⊢
        omega

theorem findFrom_found {p : List Char → Bool} (A : List (List Char)) (l : List Char)
    (B : List (List Char)) (off : Nat)
    (hA : ∀ x ∈ A, p x = false) (hl : p l = true) :
    findFrom p (A ++ l :: B) off = some (off + sumLen A, off + sumLen A + l.length) := by
  induction A generalizing off with
  | nil => simp [findFrom, hl, sumLen]
  | cons a A ih =>
    have ha : p a = false := hA a (by simp)
    simp only [List.cons_append, findFrom, ha, Bool.false_eq_true, if_false,
      List.append_eq]
    rw [ih (off + a.length) (fun x hx => hA x (List.mem_cons_of_mem a hx))]
    simp [sumLen]
    omega

theorem dropLast_cons_ne {α : Type} (c : α) {l : List α} (h : l ≠ []) :
    (c :: l).dropLast = c :: l.dropLast := by
  rcases l with _ | ⟨d, ds⟩
  · exact absurd rfl h
  · rfl

theorem getLast?_cons_ne {α : Type} (c : α) {l : List α} (h : l ≠ []) :
    (c :: l).getLast? = l.getLast? := by
  rcases l with _ | ⟨d, ds⟩
  · exact absurd rfl h
  · exact List.getLast?_cons_cons ..

theorem splitLines_cons_nil (c : Char) {rest : List Char}
    (h : splitLines rest = []) : splitLines (c :: rest) = [[c]] := by
  unfold splitLines
  rw [h]

theorem splitLines_cons_nl {rest x : List Char} {xs : List (List Char)}
    (h : splitLines rest = x :: xs) :
    splitLines ('\n' :: rest) = ['\n'] :: x :: xs := by
  unfold splitLines
  rw [h]
  simp

theorem splitLines_cons_ch {c : Char} (hc : c ≠ '\n') {rest x : List Char}
    {xs : List (List Char)} (h : splitLines rest = x :: xs) :
    splitLines (c :: rest) = (c :: x) :: xs := by
  unfold splitLines
  rw [h]
  simp [hc]

theorem splitLines_isLine (s : List Char) : ∀ l ∈ splitLines s, IsLine l := by
  induction s with
  | nil => simp [splitLines]
  | cons c rest ih =>
    intro l hl
    rcases h : splitLines rest with _ | ⟨x, xs⟩
    · rw [splitLines_cons_nil c h] at hl
      simp at hl
      subst hl
      exact ⟨by simp, by simp⟩
    · have hx : IsLine x := ih x (h ▸ List.mem_cons_self x xs)
      by_cases hc : c = '\n'
      · subst hc
        rw [splitLines_cons_nl h] at hl
        rcases List.mem_cons.mp hl with h1 | h1
        · subst h1
          exact ⟨by simp, by simp⟩
        · exact ih l (h ▸ h1)
      · rw [splitLines_cons_ch hc h] at hl
        rcases List.mem_cons.mp hl with h1 | h1
        · subst h1
          refine ⟨by simp, ?_⟩
          intro d hd
          rw [dropLast_cons_ne c hx.1] at hd
          rcases List.mem_cons.mp hd with h2 | h2
          · exact h2 ▸ hc
          · exact hx.2 d h2
        · exact ih l (h ▸ List.mem_cons_of_mem x h1)

theorem splitLines_isNLine (s : List Char) :
    ∀ l ∈ (splitLines s).dropLast, IsNLine l := by
  induction s with
  | nil => simp [splitLines]
  | cons c rest ih =>
    intro l hl
    rcases h : splitLines rest with _ | ⟨x, xs⟩
    · rw [splitLines_cons_nil c h] at hl
      simp at hl
    · have hx : IsLine x := splitLines_isLine rest x (h ▸ List.mem_cons_self x xs)
      by_cases hc : c = '\n'
      · subst hc
        rw [splitLines_cons_nl h, dropLast_cons_ne _ (by simp)] at hl
        rcases List.mem_cons.mp hl with h1 | h1
        · subst h1
          exact ⟨⟨by simp, by simp⟩, by simp⟩
        · exact ih l (h ▸ h1)
      · rw [splitLines_cons_ch hc h] at hl
        rcases hxs : xs with _ | ⟨z, zs⟩
        · subst hxs
          simp at hl
        · have hxsne : xs ≠ [] := by rw [hxs]; simp
          rw [dropLast_cons_ne _ hxsne] at hl
          rcases List.mem_cons.mp hl with h1 | h1
          · subst h1
            have hcx : IsLine (c :: x) := by
              apply splitLines_isLine (c :: rest)
              rw [splitLines_cons_ch hc h]
              exact List.mem_cons_self _ _
            have hxN : IsNLine x := by
              apply ih
              rw [h, dropLast_cons_ne _ hxsne]
              exact List.mem_cons_self _ _
            refine ⟨hcx, ?_⟩
            rw [getLast?_cons_ne c hxN.1.1]
            exact hxN.2
          · apply ih
            rw [h, dropLast_cons_ne _ hxsne]
            exact List.mem_cons_of_mem _ h1

theorem splitLines_line_append (t : List Char) : ∀ (l : List Char), IsNLine l →
    splitLines (l ++ t) = l :: splitLines t := by
  intro l
  induction l with
  | nil => exact fun h => absurd rfl h.1.1
  | cons c rest ih =>
    intro h
    rcases hr : rest with _ | ⟨d, ds⟩
    · subst hr
      have hc : c = '\n' := by simpa using h.2
      subst hc
      rcases ht : splitLines t with _ | ⟨x, xs⟩
      · rw [(splitLines_eq_nil t).mp ht]
        rfl
      · exact splitLines_cons_nl ht
    · rw [← hr]
      have hrne : rest ≠ [] := by rw [hr]; simp
      have hc : c ≠ '\n' := by
        apply h.1.2
        rw [dropLast_cons_ne c hrne]
        simp
      have hrest : IsNLine rest := by
        refine ⟨⟨hrne, ?_⟩, ?_⟩
        · intro d hd
          apply h.1.2 d
          rw [dropLast_cons_ne c hrne]
          exact List.mem_cons_of_mem c hd
        · have h2 := h.2
          rw [getLast?_cons_ne c hrne] at h2
          exact h2
      have hrec := ih hrest
      show splitLines (c :: (rest ++ t)) = (c :: rest) :: splitLines t
      exact splitLines_cons_ch hc hrec

theorem splitLines_single : ∀ {l : List Char}, IsLine l → splitLines l = [l] := by
  intro l
  induction l with
  | nil => exact fun h => absurd rfl h.1
  | cons c rest ih =>
    intro h
    rcases hr : rest with _ | ⟨d, ds⟩
    · subst hr
      exact splitLines_cons_nil c rfl
    · rw [← hr]
      have hrne : rest ≠ [] := by rw [hr]; simp
      have hc : c ≠ '\n' := by
        apply h.2
        rw [dropLast_cons_ne c hrne]
        simp
      have hrec : splitLines rest = [rest] := by
        apply ih
        refine ⟨hrne, ?_⟩
        intro d hd
        apply h.2 d
        rw [dropLast_cons_ne c hrne]
        exact List.mem_cons_of_mem c hd
      exact splitLines_cons_ch hc hrec

theorem splitLines_flatten_append {X : List (List Char)} (t : List Char)
    (h : ∀ l ∈ X, IsNLine l) : splitLines (X.flatten ++ t) = X ++ splitLines t := by
  induction X with
  | nil => simp
  | cons l ls ih =>
    rw [List.flatten_cons, List.append_assoc,
      splitLines_line_append _ l (h l (List.mem_cons_self _ _)),
      ih (fun x hx => h x (List.mem_cons_of_mem l hx))]
    rfl

theorem splitLines_flatten {X : List (List Char)}
    (h1 : ∀ l ∈ X, IsLine l) (h2 : ∀ l ∈ X.dropLast, IsNLine l) :
    splitLines X.flatten = X := by
  induction X with
  | nil => simp [splitLines]
  | cons l ls ih =>
    rcases hls : ls with _ | ⟨x, xs⟩
    · subst hls
      simp only [List.flatten_cons, List.flatten_nil, List.append_nil]
      exact splitLines_single (h1 l (List.mem_cons_self _ _))
    · rw [← hls]
      have hlsne : ls ≠ [] := by rw [hls]; simp
      have hnl : IsNLine l := by
        apply h2
        rw [dropLast_cons_ne l hlsne]
        exact List.mem_cons_self _ _
      have harg : ∀ x ∈ ls.dropLast, IsNLine x := by
        intro x hx
        apply h2 x
        rw [dropLast_cons_ne l hlsne]
        exact List.mem_cons_of_mem l hx
      rw [List.flatten_cons, splitLines_line_append _ l hnl,
        ih (fun x hx => h1 x (List.mem_cons_of_mem l hx)) harg]

end Mdcode

namespace Region

open Mdcode

example : matchStartAny ("// #region x\n".toList) = true := by decide

example : matchStartAny ("//#region x\n".toList) = true := by decide

example : matchStartAny ("#region x\n".toList) = false := by decide

example : matchStartAny ("// #region x".toList) = false := by decide

example : matchEndAnon ("  <!-- #endregion -->\n".toList) = true := by decide

example : matchEndAnon ("// #endregion x\n".toList) = false := by decide

example : matchNamed endregionKw ("x".toList) ("// #endregion x\n".toList) = true := by
  decide

example : matchStartAny ("// # region x\n".toList) = false := by decide

theorem validInsert_cons_esc (d : Char) (rest : List Char) :
    validInsert ('\\' :: d :: rest) = (isSpecialRe d && validInsert rest) := by
  rfl

theorem validInsert_cons_ch {c : Char} (hc : c ≠ '\\') (rest : List Char) :
    validInsert (c :: rest) = (!isSpecialRe c && validInsert rest) := by
  simp [validInsert, hc]

theorem quoteMeta_cons (c : Char) (rest : List Char) :
    quoteMeta (c :: rest) =
      (if isSpecialRe c then ['\\', c] else [c]) ++ quoteMeta rest := by
  simp [quoteMeta]

theorem validInsert_quoteMeta (s : List Char) : validInsert (quoteMeta s) = true := by
  induction s with
  | nil => rfl
  | cons c rest ih =>
    rw [quoteMeta_cons]
    by_cases h : isSpecialRe c = true
    · rw [if_pos h]
      show validInsert ('\\' :: c :: quoteMeta rest) = true
      rw [validInsert_cons_esc, h, ih]
      rfl
    · rw [if_neg h]
      have hc : c ≠ '\\' := by
        intro he
        rw [he] at h
        exact h rfl
      have hfalse : isSpecialRe c = false := by
        simpa using h
      show validInsert (c :: quoteMeta rest) = true
      rw [validInsert_cons_ch hc, hfalse, ih]
      rfl

theorem decodeInsert_quoteMeta (s : List Char) : decodeInsert (quoteMeta s) = s := by
  induction s with
  | nil => rfl
  | cons c rest ih =>
    rw [quoteMeta_cons]
    by_cases h : isSpecialRe c = true
    · rw [if_pos h]
      show c :: decodeInsert (quoteMeta rest) = c :: rest
      rw [ih]
    · rw [if_neg h]
      have hc : c ≠ '\\' := by
        intro he
        rw [he] at h
        exact h rfl
      show decodeInsert (c :: quoteMeta rest) = c :: rest
      rw [show decodeInsert (c :: quoteMeta rest) = c :: decodeInsert (quoteMeta rest)
        from by simp [decodeInsert, hc], ih]

theorem marker_ok (kw name : List Char) :
    marker kw name = .ok (matchNamed kw name) := by
  simp [marker, validInsert_quoteMeta, decodeInsert_quoteMeta]

theorem findRegion_eq (source name : List Char) :
    findRegion source name =
      match findFrom (matchNamed regionKw name) (splitLines source) 0 with
      | none => .ok none
      | some (_, idxBegin) =>
        match findFrom (matchNamed endregionKw name)
            (splitLines (source.drop idxBegin)) 0 with
        | some (es, _) => .ok (some (idxBegin, idxBegin + es))
        | none =>
          match findFrom matchEndAnon (splitLines (source.drop idxBegin)) 0 with
          | some (es, _) => .ok (some (idxBegin, idxBegin + es))
          | none => .ok none := by
  unfold findRegion
  rw [marker_ok, marker_ok]

/-- Rune-level half of the C9 analysis: once a name is an already-decoded
scalar sequence (as it is whenever the pattern has compiled), the engine
never errors — `quoteMeta` output always passes the `validInsert` check, so
the error branches of `findRegion` are dead at this layer.  The compile
step itself, which can genuinely fail on invalid UTF-8, is settled at the
byte level over `compileB`. -/
theorem findRegion_read_replace_ok (source name value : List Char) :
    (∃ r, findRegion source name = .ok r) ∧
      (∃ r, Read source name = .ok r) ∧
      (∃ r, Replace source name value = .ok r) := by
  have hfr : ∃ r, findRegion source name = .ok r := by
    rw [findRegion_eq]
    rcases h1 : findFrom (matchNamed regionKw name) (splitLines source) 0 with _ | ⟨s, t⟩
    · exact ⟨none, rfl⟩
    · rcases h2 : findFrom (matchNamed endregionKw name)
          (splitLines (source.drop t)) 0 with _ | ⟨es, et⟩
      · rcases h3 : findFrom matchEndAnon (splitLines (source.drop t)) 0 with _ | ⟨es, et⟩
        · exact ⟨none, by simp only [h2, h3]⟩
        · exact ⟨some (t, t + es), by simp only [h2, h3]⟩
      · exact ⟨some (t, t + es), by simp only [h2]⟩
  obtain ⟨r, hr⟩ := hfr
  refine ⟨⟨r, hr⟩, ?_, ?_⟩
  · unfold Read
    rw [hr]
    rcases r with _ | ⟨b, e⟩
    · exact ⟨_, rfl⟩
    · exact ⟨_, rfl⟩
  · unfold Replace
    rw [hr]
    rcases r with _ | ⟨b, e⟩
    · exact ⟨_, rfl⟩
    · exact ⟨_, rfl⟩

/-- Claim C2 (counterexample): `Replace` on a missing name returns a nil
(empty) rewritten document together with `found = false`; for the one-byte
document `"a"` the returned document is not byte-identical to the input, so
the claim as stated fails. -/
theorem replace_missing_counterexample :
    Replace ("a".toList) ("missing".toList) ("v".toList) = .ok ([], false) ∧
      ([] : List Char) ≠ "a".toList := by
  constructor
  · rfl
  · simp

/-- Claim C2 (amended): for every document `D`, every name with no located
region in `D`, and every value `V`, `Replace` returns `found = false` and a
nil (empty) rewritten document — the input `D` itself is left untouched, but
the returned slice is Go's `nil`, not `D`. -/
theorem replace_missing_noop (D name V : List Char)
    (h : findRegion D name = .ok none) :
    Replace D name V = .ok ([], false) := by
  unfold Replace
  rw [h]

/-- Witness for `replace_missing_noop`. -/
theorem replace_missing_noop_witness :
    findRegion ("ab".toList) ("z".toList) = .ok none ∧
      Replace ("ab".toList) ("z".toList) ("w".toList) = .ok ([], false) :=
  ⟨by rfl, replace_missing_noop ("ab".toList) ("z".toList) ("w".toList) (by rfl)⟩

end Region

namespace Mdcode

/-- Claim C10: the change detection of `Walk` records a block as modified
exactly when the walker rebinds `block.Code` to a slice whose contents differ
from the extracted contents; an in-place mutation of the bytes is never
detected, because the saved pre-transform header aliases the same backing
array that is compared against. -/
theorem walk_detects_only_rebind (st : Store) (r : SliceRef) (hr : r.ref < st.length) :
    (∀ f, (detectStep st r (.mutate f)).2.2 = false) ∧
      (∀ v, ((detectStep st r (.rebind v)).2.2 = true ↔ deref st r ≠ v)) := by
  constructor
  · intro f
    simp [detectStep]
  · intro v
    have h1 : deref (st ++ [v]) r = deref st r := by
      unfold deref
      rw [List.getD_eq_getElem?_getD, List.getD_eq_getElem?_getD,
        List.getElem?_append, if_pos hr]
    have h2 : deref (st ++ [v]) ⟨st.length⟩ = v := by
      unfold deref
      rw [List.getD_eq_getElem?_getD, List.getElem?_append_right (le_refl _)]
      simp
    simp [detectStep, h1, h2]

/-- Witness for `walk_detects_only_rebind`. -/
theorem walk_detects_only_rebind_witness :
    (0 : Nat) < ([['a']] : Store).length ∧
      (detectStep [['a']] ⟨0⟩ (.mutate (fun _ => ['b']))).2.2 = false ∧
      ((detectStep [['a']] ⟨0⟩ (.rebind ['b'])).2.2 = true ↔
        deref [['a']] ⟨0⟩ ≠ ['b']) :=
  ⟨by decide, (walk_detects_only_rebind [['a']] ⟨0⟩ (by decide)).1 _,
    (walk_detects_only_rebind [['a']] ⟨0⟩ (by decide)).2 _⟩

theorem segsOrdered_last {lo : Nat} {ls : List Segment} (h : SegsOrdered lo ls)
    {last : Segment} (hl : ls.getLast? = some last) : lo ≤ last.stop := by
  induction ls generalizing lo with
  | nil => simp at hl
  | cons s rest ih =>
    obtain ⟨h1, h2, h3⟩ := h
    rcases hr : rest with _ | ⟨t, ts⟩
    · rw [hr] at hl
      simp at hl
      subst hl
      omega
    · have hrne : rest ≠ [] := by rw [hr]; simp
      rw [getLast?_cons_ne s hrne] at hl
      have h4 := ih h3 hl
      omega

theorem lineAt_pos (source : List Char) (offset : Nat) : 1 ≤ lineAt source offset :=
  Nat.le_add_right 1 _

theorem lineAt_mono (source : List Char) {o1 o2 : Nat} (h : o1 ≤ o2) :
    lineAt source o1 ≤ lineAt source o2 := by
  unfold lineAt
  have h1 : (source.take o2).take o1 = source.take o1 := by
    rw [List.take_take]
    congr 1
    omega
  have hsub : List.Sublist (source.take o1) (source.take o2) :=
    h1 ▸ List.take_sublist o1 (source.take o2)
  have := hsub.count_le '\n'
  omega

theorem extractEndLine_none {source : List Char} {fcb : FCB}
    (h : fcb.lines.getLast? = none) :
    extractEndLine source fcb =
      if 0 < extractStartLine source fcb then extractStartLine source fcb + 1
      else 0 := by
  unfold extractEndLine
  rw [h]

theorem extractEndLine_some {source : List Char} {fcb : FCB} {last : Segment}
    (h : fcb.lines.getLast? = some last) :
    extractEndLine source fcb = lineAt source last.stop := by
  unfold extractEndLine
  rw [h]

theorem extractStartLine_info {source : List Char} {fcb : FCB} {seg : Segment}
    (h : fcb.info = some seg) :
    extractStartLine source fcb = lineAt source seg.start := by
  unfold extractStartLine
  rw [h]

theorem extractStartLine_noinfo {source : List Char} {fcb : FCB} {l : Segment}
    {rest : List Segment} (h1 : fcb.info = none) (h2 : fcb.lines = l :: rest) :
    extractStartLine source fcb = lineAt source l.start - 1 := by
  unfold extractStartLine
  rw [h1, h2]

theorem extractLines_le (source : List Char) (fcb : FCB) (h : FCBWf fcb) :
    (extractLines source fcb).1 ≤ (extractLines source fcb).2 := by
  have hwf := h
  unfold FCBWf at hwf
  show extractStartLine source fcb ≤ extractEndLine source fcb
  rcases hlast : fcb.lines.getLast? with _ | ⟨last⟩
  · rw [extractEndLine_none hlast]
    by_cases hs : 0 < extractStartLine source fcb
    · rw [if_pos hs]
      omega
    · rw [if_neg hs]
      omega
  · rw [extractEndLine_some hlast]
    have hne : fcb.lines ≠ [] := by
      intro h0
      rw [h0] at hlast
      simp at hlast
    rcases hinfo : fcb.info with _ | ⟨seg⟩
    · rw [hinfo] at hwf
      rcases hlines : fcb.lines with _ | ⟨l, rest⟩
      · exact absurd hlines hne
      · rw [extractStartLine_noinfo hinfo hlines]
        rw [hlines] at hwf hlast
        have hls : l.start ≤ last.stop := by
          obtain ⟨hh1, hh2, hh3⟩ := hwf
          rcases hr : rest with _ | ⟨t, ts⟩
          · rw [hr] at hlast
            simp at hlast
            subst hlast
            omega
          · have hrne : rest ≠ [] := by rw [hr]; simp
            rw [getLast?_cons_ne l hrne] at hlast
            have := segsOrdered_last hh3 hlast
            omega
        have hm := lineAt_mono source hls
        have hp := lineAt_pos source l.start
        omega
    · rw [hinfo] at hwf
      rw [extractStartLine_info hinfo]
      have hss : seg.start ≤ last.stop := by
        obtain ⟨hh1, hh2⟩ := hwf
        have := segsOrdered_last hh2 hlast
        omega
      exact lineAt_mono source hss

/-- Claim C8: every `Block` produced by extraction satisfies
`StartLine ≤ EndLine`, for every well-formed fenced-code-block node (with or
without an info string, with or without body lines); `Walk` and `Unfence`
both produce their blocks through `extractBlock`. -/
theorem block_startLine_le_endLine {ε μ : Type} (parseMetaF : List Char → Except ε μ)
    (source : List Char) (fcb : FCB) (b : Block μ) (hwf : FCBWf fcb)
    (hb : extractBlock parseMetaF source fcb = .ok b) :
    b.startLine ≤ b.endLine := by
  have hle := extractLines_le source fcb hwf
  unfold extractBlock at hb
  rcases hi : extractInfo parseMetaF source fcb with e | ⟨lang, meta⟩ <;> rw [hi] at hb
  · exact absurd hb (by simp)
  · simp only [Except.ok.injEq] at hb
    subst hb
    exact hle

/-- Witness for `block_startLine_le_endLine`. -/
theorem block_startLine_le_endLine_witness :
    FCBWf (⟨none, [⟨4, 7⟩]⟩ : FCB) ∧
      extractBlock (fun _ => (.ok () : Except Unit Unit)) ("```\nab\n```\n".toList)
          ⟨none, [⟨4, 7⟩]⟩ =
        .ok (⟨[], none, "ab\n".toList, 1, 3⟩ : Block Unit) ∧
      (⟨[], none, "ab\n".toList, 1, 3⟩ : Block Unit).startLine ≤
        (⟨[], none, "ab\n".toList, 1, 3⟩ : Block Unit).endLine := by
  have hwf : FCBWf (⟨none, [⟨4, 7⟩]⟩ : FCB) := ⟨by decide, by decide, trivial⟩
  have hb : extractBlock (fun _ => (.ok () : Except Unit Unit)) ("```\nab\n```\n".toList)
      ⟨none, [⟨4, 7⟩]⟩ = .ok (⟨[], none, "ab\n".toList, 1, 3⟩ : Block Unit) := by rfl
  exact ⟨hwf, hb, block_startLine_le_endLine (fun _ => .ok ()) ("```\nab\n```\n".toList)
    ⟨none, [⟨4, 7⟩]⟩ ⟨[], none, "ab\n".toList, 1, 3⟩ hwf hb⟩

theorem walkGo_unchanged {ε μ : Type} (parseMetaF : List Char → Except ε μ)
    (source : List Char) (walker : Block μ → Except ε (Block μ)) :
    ∀ (fcbs : List FCB) (changes : List (FCB × Block μ)),
      (∀ fcb ∈ fcbs, ∃ b b2, extractBlock parseMetaF source fcb = .ok b ∧
        walker b = .ok b2 ∧ b2.code = b.code) →
      walkGo parseMetaF source walker fcbs changes =
        walkGo parseMetaF source walker [] changes := by
  intro fcbs
  induction fcbs with
  | nil => intro changes _; rfl
  | cons fcb rest ih =>
    intro changes h
    obtain ⟨b, b2, hb, hw, hc⟩ := h fcb (List.mem_cons_self _ _)
    simp only [walkGo, hb, hw]
    rw [if_pos hc.symm]
    exact ih changes (fun g hg => h g (List.mem_cons_of_mem fcb hg))

/-- Claim C5: for every document and every transform that leaves every
block's `Code` byte-equal to the extracted content (the no-op transform
included), `Walk` returns `modified = false` and a nil rewritten slice. -/
theorem walk_noop {ε μ : Type} (parseMetaF : List Char → Except ε μ)
    (source : List Char) (fcbs : List FCB) (walker : Block μ → Except ε (Block μ))
    (h : ∀ fcb ∈ fcbs, ∃ b b2, extractBlock parseMetaF source fcb = .ok b ∧
      walker b = .ok b2 ∧ b2.code = b.code) :
    Walk parseMetaF source fcbs walker = .ok (false, none) := by
  unfold Walk
  rw [walkGo_unchanged parseMetaF source walker fcbs [] h]
  rfl

/-- Witness for `walk_noop`. -/
theorem walk_noop_witness :
    (∀ fcb ∈ [(⟨none, [⟨4, 7⟩]⟩ : FCB)], ∃ b b2,
        extractBlock (fun _ => (.ok () : Except Unit Unit)) ("```\nab\n```\n".toList)
          fcb = .ok b ∧
        (fun bb => (.ok bb : Except Unit (Block Unit))) b = .ok b2 ∧
        b2.code = b.code) ∧
      Walk (fun _ => (.ok () : Except Unit Unit)) ("```\nab\n```\n".toList)
        [⟨none, [⟨4, 7⟩]⟩] (fun bb => .ok bb) = .ok (false, none) := by
  have h : ∀ fcb ∈ [(⟨none, [⟨4, 7⟩]⟩ : FCB)], ∃ b b2,
      extractBlock (fun _ => (.ok () : Except Unit Unit)) ("```\nab\n```\n".toList)
        fcb = .ok b ∧
      (fun bb => (.ok bb : Except Unit (Block Unit))) b = .ok b2 ∧
      b2.code = b.code := by
    intro fcb hf
    simp at hf
    subst hf
    exact ⟨_, _, rfl, rfl, rfl⟩
  exact ⟨h, walk_noop _ _ _ _ h⟩

theorem walkGo_error {ε μ : Type} (parseMetaF : List Char → Except ε μ)
    (source : List Char) (walker : Block μ → Except ε (Block μ))
    (post : List FCB) (fcb : FCB) (b : Block μ) (er : ε)
    (hb : extractBlock parseMetaF source fcb = .ok b)
    (hw : walker b = .error er) :
    ∀ (pre : List FCB) (changes : List (FCB × Block μ)),
      (∀ f ∈ pre, ∃ x y, extractBlock parseMetaF source f = .ok x ∧ walker x = .ok y) →
      walkGo parseMetaF source walker (pre ++ fcb :: post) changes = .error er := by
  intro pre
  induction pre with
  | nil =>
    intro changes _
    simp only [List.nil_append, walkGo, hb, hw]
  | cons f pre ih =>
    intro changes hpre
    obtain ⟨x, y, hx, hy⟩ := hpre f (List.mem_cons_self _ _)
    simp only [List.cons_append, walkGo, hx, hy]
    by_cases hxy : x.code = y.code
    · rw [if_pos hxy]
      exact ih _ (fun g hg => hpre g (List.mem_cons_of_mem f hg))
    · rw [if_neg hxy]
      exact ih _ (fun g hg => hpre g (List.mem_cons_of_mem f hg))

/-- Claim C7: when the transform fails on some block, `Walk` aborts there (no
later block is visited, whatever `post` contains), discards every change
recorded so far (the result carries no rewritten document), and propagates
the error value unchanged. -/
theorem walk_transform_error {ε μ : Type} (parseMetaF : List Char → Except ε μ)
    (source : List Char) (walker : Block μ → Except ε (Block μ))
    (pre post : List FCB) (fcb : FCB) (b : Block μ) (er : ε)
    (hpre : ∀ f ∈ pre, ∃ x y, extractBlock parseMetaF source f = .ok x ∧
      walker x = .ok y)
    (hb : extractBlock parseMetaF source fcb = .ok b)
    (hw : walker b = .error er) :
    Walk parseMetaF source (pre ++ fcb :: post) walker = .error er :=
  walkGo_error parseMetaF source walker post fcb b er hb hw pre [] hpre

/-- Witness for `walk_transform_error`: the first block is rewritten before
the second block's transform fails; the third block sits untouched after it. -/
theorem walk_transform_error_witness :
    (∀ f ∈ [(⟨none, [⟨0, 2⟩]⟩ : FCB)], ∃ x y,
        extractBlock (fun _ => (.ok () : Except Unit Unit)) ("a\nb\nc\n".toList) f =
          .ok x ∧
        (fun bb : Block Unit =>
          if bb.code = "b\n".toList then (.error () : Except Unit (Block Unit))
          else .ok { bb with code := '!' :: bb.code }) x = .ok y) ∧
      extractBlock (fun _ => (.ok () : Except Unit Unit)) ("a\nb\nc\n".toList)
          ⟨none, [⟨2, 4⟩]⟩ =
        .ok (⟨[], none, "b\n".toList, 1, 3⟩ : Block Unit) ∧
      (fun bb : Block Unit =>
        if bb.code = "b\n".toList then (.error () : Except Unit (Block Unit))
        else .ok { bb with code := '!' :: bb.code })
          (⟨[], none, "b\n".toList, 1, 3⟩ : Block Unit) = .error () ∧
      Walk (fun _ => (.ok () : Except Unit Unit)) ("a\nb\nc\n".toList)
        ([⟨none, [⟨0, 2⟩]⟩] ++ ⟨none, [⟨2, 4⟩]⟩ :: [⟨none, [⟨4, 6⟩]⟩])
        (fun bb : Block Unit =>
          if bb.code = "b\n".toList then .error ()
          else .ok { bb with code := '!' :: bb.code }) = .error () := by
  have hpre : ∀ f ∈ [(⟨none, [⟨0, 2⟩]⟩ : FCB)], ∃ x y,
      extractBlock (fun _ => (.ok () : Except Unit Unit)) ("a\nb\nc\n".toList) f =
        .ok x ∧
      (fun bb : Block Unit =>
        if bb.code = "b\n".toList then (.error () : Except Unit (Block Unit))
        else .ok { bb with code := '!' :: bb.code }) x = .ok y := by
    intro f hf
    simp at hf
    subst hf
    exact ⟨⟨[], none, "a\n".toList, 0, 2⟩, _, by rfl, by rfl⟩
  refine ⟨hpre, by rfl, by rfl, ?_⟩
  exact walk_transform_error (fun _ => (.ok () : Except Unit Unit)) ("a\nb\nc\n".toList)
    (fun bb : Block Unit =>
      if bb.code = "b\n".toList then .error ()
      else .ok { bb with code := '!' :: bb.code })
    [⟨none, [⟨0, 2⟩]⟩] [⟨none, [⟨4, 6⟩]⟩] ⟨none, [⟨2, 4⟩]⟩
    ⟨[], none, "b\n".toList, 1, 3⟩ () hpre (by rfl) (by rfl)

end Mdcode

namespace Region

open Mdcode

theorem isPrefixOf_cons {x : Char} {xs s : List Char}
    (h : (x :: xs).isPrefixOf s = true) :
    ∃ t, s = x :: t ∧ xs.isPrefixOf t = true := by
  rcases s with _ | ⟨y, ys⟩
  · simp [List.isPrefixOf] at h
  · simp only [List.isPrefixOf, Bool.and_eq_true, beq_iff_eq] at h
    exact ⟨ys, by rw [h.1], h.2⟩

theorem matchMarker_cases {kw l rest : List Char} (h : matchMarker kw l = some rest) :
    ((((l.dropWhile isBlank).dropWhile isSpec).takeWhile isBlank).isEmpty = true ∧
      (kw.drop 1).isPrefixOf ((l.dropWhile isBlank).dropWhile isSpec) = true) ∨
    ((((l.dropWhile isBlank).dropWhile isSpec).takeWhile isBlank).isEmpty = false ∧
      kw.isPrefixOf (((l.dropWhile isBlank).dropWhile isSpec).dropWhile isBlank) =
        true) := by
  simp only [matchMarker] at h
  split_ifs at h with h1 h2 h3 h4
  · exact Or.inl ⟨by simpa using h2, h3.2.2⟩
  · exact Or.inr ⟨by simpa using h2, by simpa using h4⟩

theorem matchMarker_region_end_disjoint {l r r2 : List Char}
    (h1 : matchMarker regionKw l = some r)
    (h2 : matchMarker endregionKw l = some r2) : False := by
  have c1 := matchMarker_cases h1
  have c2 := matchMarker_cases h2
  have eR : regionKw.drop 1 = 'r' :: "egion".toList := by rfl
  have eE : endregionKw.drop 1 = 'e' :: "ndregion".toList := by rfl
  have eR0 : regionKw = '#' :: "region".toList := by rfl
  have eE0 : endregionKw = '#' :: "endregion".toList := by rfl
  rcases c1 with ⟨hb1, hp1⟩ | ⟨hb1, hp1⟩ <;> rcases c2 with ⟨hb2, hp2⟩ | ⟨hb2, hp2⟩
  · rw [eR] at hp1
    rw [eE] at hp2
    obtain ⟨t1, ht1, _⟩ := isPrefixOf_cons hp1
    obtain ⟨t2, ht2, _⟩ := isPrefixOf_cons hp2
    rw [ht1] at ht2
    exact absurd (List.cons.injEq .. ▸ ht2).1 (by decide)
  · rw [hb1] at hb2
    exact absurd hb2 (by simp)
  · rw [hb1] at hb2
    exact absurd hb2 (by simp)
  · rw [eR0] at hp1
    rw [eE0] at hp2
    obtain ⟨t1, ht1, hq1⟩ := isPrefixOf_cons hp1
    obtain ⟨t2, ht2, hq2⟩ := isPrefixOf_cons hp2
    rw [ht1] at ht2
    have ht12 : t1 = t2 := (List.cons.injEq .. ▸ ht2).2
    rw [show ("region".toList : List Char) = 'r' :: "egion".toList from rfl] at hq1
    rw [show ("endregion".toList : List Char) = 'e' :: "ndregion".toList from rfl] at hq2
    obtain ⟨u1, hu1, _⟩ := isPrefixOf_cons hq1
    obtain ⟨u2, hu2, _⟩ := isPrefixOf_cons hq2
    rw [ht12, hu2] at hu1
    exact absurd (List.cons.injEq .. ▸ hu1).1 (by decide)

theorem matchStartAny_marker {l : List Char} (h : matchStartAny l = true) :
    ∃ rest, matchMarker regionKw l = some rest ∧ anyNameTail rest = true := by
  unfold matchStartAny at h
  rcases hm : matchMarker regionKw l with _ | ⟨rest⟩ <;> rw [hm] at h
  · exact absurd h (by simp)
  · exact ⟨rest, rfl, h⟩

theorem start_not_endAnon {l : List Char} (h : matchStartAny l = true) :
    matchEndAnon l = false := by
  obtain ⟨rest, hm, _⟩ := matchStartAny_marker h
  unfold matchEndAnon
  rcases hm2 : matchMarker endregionKw l with _ | ⟨rest2⟩
  · rfl
  · exact absurd (matchMarker_region_end_disjoint hm hm2) (by simp)

theorem outlineScan_true_noEnd {ls : List (List Char)}
    (h : ∀ l ∈ ls, matchEndAnon l = false) :
    outlineScan true ls = .error .missingEndregion := by
  induction ls with
  | nil => rfl
  | cons l ls ih =>
    have hl := h l (List.mem_cons_self _ _)
    simp only [outlineScan, hl, Bool.false_eq_true, if_false]
    exact ih (fun x hx => h x (List.mem_cons_of_mem _ hx))

theorem outlineScan_false_start_err {l : List Char} {ls : List (List Char)}
    (h : matchStartAny l = true)
    (herr : outlineScan true ls = .error .missingEndregion) :
    outlineScan false (l :: ls) = .error .missingEndregion := by
  simp only [outlineScan, h, if_true, herr]

theorem outlineScan_false_nostart_err {l : List Char} {ls : List (List Char)}
    (h : matchStartAny l = false)
    (herr : outlineScan false ls = .error .missingEndregion) :
    outlineScan false (l :: ls) = .error .missingEndregion := by
  simp only [outlineScan, h, Bool.false_eq_true, if_false, herr]

theorem outlineScan_true_end_err {l : List Char} {ls : List (List Char)}
    (h : matchEndAnon l = true)
    (herr : outlineScan false ls = .error .missingEndregion) :
    outlineScan true (l :: ls) = .error .missingEndregion := by
  simp only [outlineScan, h, if_true, herr]

theorem outlineScan_true_noend_step {l : List Char} {ls : List (List Char)}
    (h : matchEndAnon l = false) :
    outlineScan true (l :: ls) = outlineScan true ls := by
  simp only [outlineScan, h, Bool.false_eq_true, if_false]

theorem outlineScan_err :
    ∀ (ls A : List (List Char)) (r : List Char) (B : List (List Char)),
      ls = A ++ r :: B → matchStartAny r = true →
      (∀ l ∈ B, matchEndAnon l = false) →
      ∀ m : Bool, outlineScan m ls = .error .missingEndregion := by
  intro ls
  induction ls with
  | nil =>
    intro A r B hA
    exact absurd hA (by simp)
  | cons l ls ih =>
    intro A r B hA hr hB m
    rcases A with _ | ⟨a, A'⟩
    · simp only [List.nil_append, List.cons.injEq] at hA
      obtain ⟨hl, hls⟩ := hA
      subst hls
      rw [← hl] at hr
      rcases m
      · exact outlineScan_false_start_err hr (outlineScan_true_noEnd hB)
      · rw [outlineScan_true_noend_step (start_not_endAnon hr)]
        exact outlineScan_true_noEnd hB
    · simp only [List.cons_append, List.cons.injEq] at hA
      obtain ⟨hl, hls⟩ := hA
      have htail := ih A' r B hls hr hB
      rcases m
      · by_cases hstart : matchStartAny l = true
        · exact outlineScan_false_start_err hstart (htail true)
        · exact outlineScan_false_nostart_err (by simpa using hstart) (htail false)
      · by_cases hend : matchEndAnon l = true
        · exact outlineScan_true_end_err hend (htail false)
        · rw [outlineScan_true_noend_step (by simpa using hend)]
          exact htail true

/-- Claim C6: a document containing a `#region` marker line with no
`#endregion` marker line (anonymous or named) anywhere after it makes
`Outline` fail with the distinguished `ErrMissingEndregion`, returning no
rewritten document. -/
theorem outline_missing_end (D : List Char) (A : List (List Char)) (r : List Char)
    (B : List (List Char)) (hsplit : splitLines D = A ++ r :: B)
    (hr : matchStartAny r = true)
    (hB : ∀ l ∈ B, matchEndAnon l = false ∧ matchEndAnyName l = false) :
    Outline D = .error ErrMissingEndregion := by
  unfold Outline
  rw [hsplit, outlineScan_err (A ++ r :: B) A r B rfl hr (fun l hl => (hB l hl).1) false]
  rfl

/-- Witness for `outline_missing_end`. -/
theorem outline_missing_end_witness :
    splitLines ("// #region foo\nbody\n".toList) =
      [] ++ ("// #region foo\n".toList) :: [("body\n".toList)] ∧
      matchStartAny ("// #region foo\n".toList) = true ∧
      (∀ l ∈ [("body\n".toList)], matchEndAnon l = false ∧
        matchEndAnyName l = false) ∧
      Outline ("// #region foo\nbody\n".toList) = .error ErrMissingEndregion := by
  refine ⟨by decide, by decide, by decide, ?_⟩
  exact outline_missing_end ("// #region foo\nbody\n".toList) []
    ("// #region foo\n".toList) [("body\n".toList)] (by decide) (by decide) (by decide)

/-- Claim C3 (counterexample): in a document whose `#region x` marker is
followed by a named `#endregion x` marker line, `Outline` does not treat the
named end marker as the region's terminator — it fails with
`ErrMissingEndregion` instead of stripping the body and succeeding. -/
theorem outline_named_end_counterexample :
    Outline ("// #region x\nbody\n// #endregion x\n".toList) =
      .error ErrMissingEndregion := by
  rfl

/-- Claim C3 (amended): only anonymous `#endregion` markers terminate regions
in `Outline`; when the lines after a `#region x` marker contain a named
`#endregion x` marker but no anonymous `#endregion` marker, `Outline` fails
with `ErrMissingEndregion` rather than stripping up to the named marker. -/
theorem outline_named_end_not_terminator (D : List Char) (A : List (List Char))
    (r : List Char) (B : List (List Char)) (hsplit : splitLines D = A ++ r :: B)
    (hr : matchStartAny r = true)
    (hnamed : ∃ l ∈ B, matchEndAnyName l = true)
    (hanon : ∀ l ∈ B, matchEndAnon l = false) :
    Outline D = .error ErrMissingEndregion := by
  unfold Outline
  rw [hsplit, outlineScan_err (A ++ r :: B) A r B rfl hr hanon false]
  rfl

/-- Witness for `outline_named_end_not_terminator`. -/
theorem outline_named_end_not_terminator_witness :
    splitLines ("//#region a\nx\n//#endregion a\n".toList) =
      [] ++ ("//#region a\n".toList) ::
        [("x\n".toList), ("//#endregion a\n".toList)] ∧
      matchStartAny ("//#region a\n".toList) = true ∧
      (∃ l ∈ [("x\n".toList), ("//#endregion a\n".toList)],
        matchEndAnyName l = true) ∧
      (∀ l ∈ [("x\n".toList), ("//#endregion a\n".toList)],
        matchEndAnon l = false) ∧
      Outline ("//#region a\nx\n//#endregion a\n".toList) =
        .error ErrMissingEndregion := by
  refine ⟨by decide, by decide, ⟨"//#endregion a\n".toList, by decide⟩, by decide, ?_⟩
  exact outline_named_end_not_terminator ("//#region a\nx\n//#endregion a\n".toList)
    [] ("//#region a\n".toList) [("x\n".toList), ("//#endregion a\n".toList)]
    (by decide) (by decide)
    ⟨"//#endregion a\n".toList, by decide⟩ (by decide)

end Region

namespace Mdcode

theorem drop_append_len {α : Type} (P t : List α) (n : Nat) :
    (P ++ t).drop (P.length + n) = t.drop n := by
  induction P with
  | nil => simp
  | cons p P ih => simpa [Nat.succ_add] using ih

theorem foldl_sizeIncrement (edits : List Edit) (init : Int) :
    edits.foldl (fun a e => a + sizeIncrement e) init =
      init + (edits.map sizeIncrement).sum := by
  induction edits generalizing init with
  | nil => simp
  | cons e rest ih =>
    simp only [List.foldl_cons, List.map_cons, List.sum_cons, ih]
    ring

theorem spliceSpec_length {source : List Char} {edits : List Edit} :
    ∀ {idx : Nat}, EditsOrdered source idx edits → idx ≤ source.length →
    ((spliceSpec source edits idx).length : Int) =
      (source.length : Int) - idx + (edits.map sizeIncrement).sum := by
  induction edits with
  | nil =>
    intro idx _ hidx
    simp [spliceSpec]
    omega
  | cons e rest ih =>
    intro idx h hidx
    obtain ⟨h1, h2, h3, h4⟩ := h
    have hrec := ih h4 h3
    have hga : ((source.take e.start).drop idx).length = e.start - idx := by
      simp
      omega
    simp only [spliceSpec, List.length_append, hga, List.map_cons, List.sum_cons,
      sizeIncrement]
    omega

theorem applyLoop_spec (source : List Char) :
    ∀ (edits : List Edit) (P junk : List Char) (srcIdx : Nat),
      EditsOrdered source srcIdx edits →
      junk.length = (spliceSpec source edits srcIdx).length →
      applyLoop source edits (P ++ junk) srcIdx P.length =
        P ++ spliceSpec source edits srcIdx := by
  intro edits
  induction edits with
  | nil =>
    intro P junk srcIdx _ hj
    simp only [applyLoop, spliceSpec] at hj ⊢
    rw [listCopy_of_fits _ _ _ (by simp [hj])]
    rw [List.take_left]
    have hnil : (P ++ junk).drop (P.length + (source.drop srcIdx).length) = [] := by
      apply List.drop_eq_nil_of_le
      simp [hj]
    rw [hnil]
    simp
  | cons e rest ih =>
    intro P junk srcIdx hord hj
    obtain ⟨h1, h2, h3, h4⟩ := hord
    have hga : ((source.take e.start).drop srcIdx).length = e.start - srcIdx := by
      simp only [List.length_drop, List.length_take]
      omega
    have hsl : (spliceSpec source (e :: rest) srcIdx).length =
        (e.start - srcIdx) + e.code.length +
          (spliceSpec source rest e.stop).length := by
      simp only [spliceSpec, List.length_append, hga]
    simp only [applyLoop]
    set gap := (source.take e.start).drop srcIdx with hgapdef
    have hfits1 : P.length + gap.length ≤ (P ++ junk).length := by
      simp only [List.length_append]
      omega
    have hres1 : listCopy (P ++ junk) P.length gap =
        (P ++ gap) ++ junk.drop gap.length := by
      rw [listCopy_of_fits _ _ _ hfits1, List.take_left, drop_append_len]
    have hlen1 : P.length + (e.start - srcIdx) = (P ++ gap).length := by
      simp only [List.length_append, hga]
    rw [hres1, hlen1]
    have hfits2 : (P ++ gap).length + e.code.length ≤
        ((P ++ gap) ++ junk.drop gap.length).length := by
      simp only [List.length_append, List.length_drop]
      omega
    have hres2 : listCopy ((P ++ gap) ++ junk.drop gap.length) (P ++ gap).length
        e.code =
        ((P ++ gap) ++ e.code) ++ (junk.drop gap.length).drop e.code.length := by
      rw [listCopy_of_fits _ _ _ hfits2, List.take_left, drop_append_len]
    rw [hres2]
    have hlen2 : (P ++ gap).length + e.code.length = ((P ++ gap) ++ e.code).length := by
      simp only [List.length_append]
    rw [hlen2]
    have hj2 : ((junk.drop gap.length).drop e.code.length).length =
        (spliceSpec source rest e.stop).length := by
      simp only [List.length_drop]
      omega
    rw [ih ((P ++ gap) ++ e.code) ((junk.drop gap.length).drop e.code.length)
      e.stop h4 hj2]
    simp [spliceSpec, List.append_assoc]

/-- Claim C1: for every original document and every ordered, non-overlapping
in-bounds list of edits, `applyChanges` produces exactly the reference
reassembly (prefix, replacements, verbatim gaps, tail), and its length is
`len(original) + Σ (len(replacement) − span length)`. -/
theorem applyChanges_correct (edits : List Edit) (source : List Char)
    (h : EditsOrdered source 0 edits) :
    applyChanges edits source = spliceSpec source edits 0 ∧
      ((applyChanges edits source).length : Int) =
        (source.length : Int) + (edits.map sizeIncrement).sum := by
  have hlen := spliceSpec_length h (Nat.zero_le _)
  have hmain : applyChanges edits source = spliceSpec source edits 0 := by
    simp only [applyChanges, foldl_sizeIncrement]
    have hsize : ((source.length : Int) + (edits.map sizeIncrement).sum).toNat =
        (spliceSpec source edits 0).length := by
      omega
    rw [hsize]
    have hcall := applyLoop_spec source edits []
      (List.replicate (spliceSpec source edits 0).length (Char.ofNat 0)) 0 h
      (by simp)
    simpa using hcall
  refine ⟨hmain, ?_⟩
  rw [hmain]
  omega

/-- Witness for `applyChanges_correct`. -/
theorem applyChanges_correct_witness :
    EditsOrdered ("abcdefgh".toList) 0 [⟨2, 4, "XYZ".toList⟩, ⟨5, 6, []⟩] ∧
      applyChanges [⟨2, 4, "XYZ".toList⟩, ⟨5, 6, []⟩] ("abcdefgh".toList) =
        spliceSpec ("abcdefgh".toList) [⟨2, 4, "XYZ".toList⟩, ⟨5, 6, []⟩] 0 ∧
      ((applyChanges [⟨2, 4, "XYZ".toList⟩, ⟨5, 6, []⟩] ("abcdefgh".toList)).length
          : Int) =
        (("abcdefgh".toList).length : Int) +
          (([⟨2, 4, "XYZ".toList⟩, ⟨5, 6, []⟩] : List Edit).map sizeIncrement).sum := by
  have hord : EditsOrdered ("abcdefgh".toList) 0
      [⟨2, 4, "XYZ".toList⟩, ⟨5, 6, []⟩] :=
    ⟨by decide, by decide, by decide, by decide, by decide, by decide, trivial⟩
  exact ⟨hord, (applyChanges_correct _ _ hord).1, (applyChanges_correct _ _ hord).2⟩

end Mdcode

namespace Mdcode

theorem sumLen_eq_flatten_length (X : List (List Char)) :
    sumLen X = X.flatten.length := by
  simp [sumLen, List.length_flatten]

theorem dropLast_append_ne {α : Type} (X : List α) {Y : List α} (h : Y ≠ []) :
    (X ++ Y).dropLast = X ++ Y.dropLast := by
  induction X with
  | nil => rfl
  | cons a X ih =>
    rw [List.cons_append, dropLast_cons_ne a (by simp [h]), ih, List.cons_append]

theorem dropWhile_ne_nil {p : Char → Bool} {l : List Char}
    (h : l.dropWhile p ≠ []) : l ≠ [] :=
  fun h0 => h (by rw [h0]; rfl)

theorem drop_ne_nil {l : List Char} {n : Nat} (h : l.drop n ≠ []) : l ≠ [] :=
  fun h0 => h (by rw [h0]; simp)

theorem getLast?_dropWhile_ne {p : Char → Bool} {l : List Char}
    (h : l.dropWhile p ≠ []) : (l.dropWhile p).getLast? = l.getLast? := by
  induction l with
  | nil => simp at h
  | cons c rest ih =>
    rw [List.dropWhile_cons] at h ⊢
    by_cases hp : p c = true
    · rw [if_pos hp] at h ⊢
      have hrne : rest ≠ [] := dropWhile_ne_nil h
      rw [ih h, getLast?_cons_ne c hrne]
    · rw [if_neg hp]

theorem getLast?_drop_ne {l : List Char} {n : Nat} (h : l.drop n ≠ []) :
    (l.drop n).getLast? = l.getLast? := by
  induction n generalizing l with
  | zero => rfl
  | succ n ih =>
    rcases l with _ | ⟨c, rest⟩
    · simp at h
    · rw [List.drop_succ_cons] at h ⊢
      have hrne : rest ≠ [] := drop_ne_nil h
      rw [ih h, getLast?_cons_ne c hrne]

theorem findFrom_bound {p : List Char → Bool} {ls : List (List Char)} {s t : Nat}
    (h : findFrom p ls 0 = some (s, t)) : t ≤ sumLen ls ∧ s ≤ t := by
  obtain ⟨A, l, B, hsplit, _, _, hs, ht⟩ := findFrom_some h
  rw [hsplit, sumLen_append]
  constructor
  · have : sumLen (l :: B) = l.length + sumLen B := by simp [sumLen]
    omega
  · omega

theorem findFrom_splitLines_decomp {p : List Char → Bool} {D : List Char} {s t : Nat}
    (h : findFrom p (splitLines D) 0 = some (s, t)) :
    ∃ A l B, splitLines D = A ++ l :: B ∧ (∀ x ∈ A, p x = false) ∧ p l = true ∧
      s = sumLen A ∧ t = s + l.length ∧
      D.take t = A.flatten ++ l ∧ D.drop t = B.flatten := by
  obtain ⟨A, l, B, hsplit, hA, hl, hs, ht⟩ := findFrom_some h
  have hD : D = (A.flatten ++ l) ++ B.flatten := by
    conv_lhs => rw [← splitLines_join D]
    rw [hsplit]
    simp [List.flatten_append, List.flatten_cons, List.append_assoc]
  have hlen : (A.flatten ++ l).length = t := by
    rw [List.length_append, ← sumLen_eq_flatten_length]
    omega
  refine ⟨A, l, B, hsplit, hA, hl, by omega, ht, ?_, ?_⟩
  · conv_lhs => rw [hD]
    rw [← hlen, List.take_left]
  · conv_lhs => rw [hD]
    rw [← hlen, List.drop_left]

end Mdcode

namespace Region

open Mdcode

theorem tailOk_last {r : List Char} (h : tailOk r = true) :
    r ≠ [] ∧ r.getLast? = some '\n' := by
  unfold tailOk at h
  simp only [Bool.or_eq_true, beq_iff_eq] at h
  have hune : ((r.dropWhile isBlank).dropWhile isSpec).dropWhile isBlank ≠ [] := by
    rcases h with h1 | h1 <;> simp [h1]
  have hulast : (((r.dropWhile isBlank).dropWhile isSpec).dropWhile isBlank).getLast? =
      some '\n' := by
    rcases h with h1 | h1 <;> rw [h1] <;> rfl
  have h3 := getLast?_dropWhile_ne hune
  have h2ne : (r.dropWhile isBlank).dropWhile isSpec ≠ [] := dropWhile_ne_nil hune
  have h2 := getLast?_dropWhile_ne h2ne
  have h1ne : r.dropWhile isBlank ≠ [] := dropWhile_ne_nil h2ne
  have h1 := getLast?_dropWhile_ne h1ne
  refine ⟨dropWhile_ne_nil h1ne, ?_⟩
  rw [← h1, ← h2, ← h3]
  exact hulast

theorem matchMarker_rest_last {kw l rest : List Char}
    (h : matchMarker kw l = some rest) (hne : rest ≠ []) :
    rest.getLast? = l.getLast? := by
  simp only [matchMarker] at h
  split_ifs at h with h1 h2 h3 h4
  · obtain hr := Option.some.injEq .. ▸ h
    rw [← hr] at hne ⊢
    have hsne : (l.dropWhile isBlank).dropWhile isSpec ≠ [] := drop_ne_nil hne
    have h1ne : l.dropWhile isBlank ≠ [] := dropWhile_ne_nil hsne
    rw [getLast?_drop_ne hne, getLast?_dropWhile_ne hsne, getLast?_dropWhile_ne h1ne]
  · obtain hr := Option.some.injEq .. ▸ h
    rw [← hr] at hne ⊢
    have hs2ne : ((l.dropWhile isBlank).dropWhile isSpec).dropWhile isBlank ≠ [] :=
      drop_ne_nil hne
    have hsne : (l.dropWhile isBlank).dropWhile isSpec ≠ [] := dropWhile_ne_nil hs2ne
    have h1ne : l.dropWhile isBlank ≠ [] := dropWhile_ne_nil hsne
    rw [getLast?_drop_ne hne, getLast?_dropWhile_ne hs2ne,
      getLast?_dropWhile_ne hsne, getLast?_dropWhile_ne h1ne]

end Region

namespace Region

open Mdcode

theorem matchNamed_last {kw nm l : List Char} (h : matchNamed kw nm l = true) :
    l.getLast? = some '\n' := by
  unfold matchNamed at h
  rcases hm : matchMarker kw l with _ | ⟨rest⟩ <;> rw [hm] at h
  · exact absurd h (by simp)
  · unfold namedTail at h
    simp only [List.any_eq_true, Bool.and_eq_true] at h
    obtain ⟨i, hi, hpre, htail⟩ := h
    obtain ⟨htne, htlast⟩ := tailOk_last htail
    have hrestne : rest ≠ [] := drop_ne_nil htne
    have h5 := getLast?_drop_ne htne
    have h6 := matchMarker_rest_last hm hrestne
    rw [← h6, ← h5]
    exact htlast

theorem matchStartAny_last {l : List Char} (h : matchStartAny l = true) :
    l.getLast? = some '\n' := by
  unfold matchStartAny at h
  rcases hm : matchMarker regionKw l with _ | ⟨rest⟩ <;> rw [hm] at h
  · exact absurd h (by simp)
  · unfold anyNameTail at h
    simp only [Bool.and_eq_true] at h
    obtain ⟨h1, h2, htail⟩ := h
    obtain ⟨htne, htlast⟩ := tailOk_last htail
    have hw1 : rest.dropWhile isBlank ≠ [] := dropWhile_ne_nil htne
    have hrestne : rest ≠ [] := dropWhile_ne_nil hw1
    have h5 := getLast?_dropWhile_ne htne
    have h6 := getLast?_dropWhile_ne hw1
    have h7 := matchMarker_rest_last hm hrestne
    rw [← h7, ← h6, ← h5]
    exact htlast

theorem matchEndAnon_last {l : List Char} (h : matchEndAnon l = true) :
    l.getLast? = some '\n' := by
  unfold matchEndAnon at h
  rcases hm : matchMarker endregionKw l with _ | ⟨rest⟩ <;> rw [hm] at h
  · exact absurd h (by simp)
  · obtain ⟨htne, htlast⟩ := tailOk_last h
    have h7 := matchMarker_rest_last hm htne
    rw [← h7]
    exact htlast

end Region

namespace Mdcode

theorem splitLines_last_nl {V : List Char} (hV : V.getLast? = some '\n') :
    ∀ l ∈ splitLines V, IsNLine l := by
  induction V with
  | nil => simp [splitLines]
  | cons c rest ih =>
    intro l hl
    rcases hr : rest with _ | ⟨d, ds⟩
    · subst hr
      have hc : c = '\n' := by simpa using hV
      subst hc
      rw [splitLines_cons_nil '\n' (show splitLines [] = [] from rfl)] at hl
      simp at hl
      subst hl
      exact ⟨⟨by simp, by simp⟩, by simp⟩
    · have hrne : rest ≠ [] := by rw [hr]; simp
      have hV2 : rest.getLast? = some '\n' := by
        rw [getLast?_cons_ne c hrne] at hV
        exact hV
      rcases h : splitLines rest with _ | ⟨x, xs⟩
      · exact absurd ((splitLines_eq_nil rest).mp h) hrne
      · by_cases hc : c = '\n'
        · subst hc
          rw [splitLines_cons_nl h] at hl
          rcases List.mem_cons.mp hl with h1 | h1
          · subst h1
            exact ⟨⟨by simp, by simp⟩, by simp⟩
          · exact ih hV2 l (h ▸ h1)
        · rw [splitLines_cons_ch hc h] at hl
          rcases List.mem_cons.mp hl with h1 | h1
          · subst h1
            have hx : IsNLine x := ih hV2 x (h ▸ List.mem_cons_self x xs)
            refine ⟨⟨by simp, ?_⟩, ?_⟩
            · intro d2 hd2
              rw [dropLast_cons_ne c hx.1.1] at hd2
              rcases List.mem_cons.mp hd2 with h2 | h2
              · exact h2 ▸ hc
              · exact hx.1.2 d2 h2
            · rw [getLast?_cons_ne c hx.1.1]
              exact hx.2
          · exact ih hV2 l (h ▸ List.mem_cons_of_mem x h1)

theorem splitLines_append_of_nl {V : List Char} (hV : V.getLast? = some '\n')
    (t : List Char) : splitLines (V ++ t) = splitLines V ++ splitLines t := by
  conv_lhs => rw [← splitLines_join V]
  exact splitLines_flatten_append t (splitLines_last_nl hV)

end Mdcode

namespace Region

open Mdcode

theorem findRegion_some_spec {D nm : List Char} {be e : Nat}
    (h : findRegion D nm = .ok (some (be, e))) :
    ∃ s, findFrom (matchNamed regionKw nm) (splitLines D) 0 = some (s, be) ∧
    ∃ es et, e = be + es ∧
      (findFrom (matchNamed endregionKw nm) (splitLines (D.drop be)) 0 =
          some (es, et) ∨
        (findFrom (matchNamed endregionKw nm) (splitLines (D.drop be)) 0 = none ∧
          findFrom matchEndAnon (splitLines (D.drop be)) 0 = some (es, et))) := by
  rw [findRegion_eq] at h
  rcases h1 : findFrom (matchNamed regionKw nm) (splitLines D) 0 with _ | ⟨s, t⟩ <;>
    rw [h1] at h
  · simp at h
  · rcases h2 : findFrom (matchNamed endregionKw nm) (splitLines (D.drop t)) 0 with
      _ | ⟨es2, et2⟩
    · rcases h3 : findFrom matchEndAnon (splitLines (D.drop t)) 0 with _ | ⟨es3, et3⟩
      · simp only [h2, h3] at h
        simp at h
      · simp only [h2, h3] at h
        simp only [Except.ok.injEq, Option.some.injEq, Prod.mk.injEq] at h
        obtain ⟨hbe, he⟩ := h
        subst hbe
        exact ⟨s, rfl, es3, et3, he.symm, Or.inr ⟨h2, h3⟩⟩
    · simp only [h2] at h
      simp only [Except.ok.injEq, Option.some.injEq, Prod.mk.injEq] at h
      obtain ⟨hbe, he⟩ := h
      subst hbe
      exact ⟨s, rfl, es2, et2, he.symm, Or.inl h2⟩

theorem findRegion_bounds {D nm : List Char} {be e : Nat}
    (h : findRegion D nm = .ok (some (be, e))) : be ≤ e ∧ e ≤ D.length := by
  obtain ⟨s, h1, es, et, he, hend⟩ := findRegion_some_spec h
  subst he
  have hbeb := findFrom_bound h1
  rw [sumLen_splitLines] at hbeb
  have hesle : es ≤ (D.drop be).length := by
    rcases hend with h2 | ⟨h2, h3⟩
    · have := findFrom_bound h2
      rw [sumLen_splitLines] at this
      omega
    · have := findFrom_bound h3
      rw [sumLen_splitLines] at this
      omega
  have hlen : (D.drop be).length = D.length - be := by simp
  omega



theorem take_len_append {α : Type} {X : List α} {n : Nat} (h : X.length = n)
    (Y : List α) : (X ++ Y).take n = X := by
  rw [← h]
  exact List.take_left X Y

theorem drop_len_append {α : Type} {X : List α} {n : Nat} (h : X.length = n)
    (Y : List α) (m : Nat) : (X ++ Y).drop (n + m) = Y.drop m := by
  rw [← h]
  exact drop_append_len X Y m

theorem Replace_found {D nm V : List Char} {b e : Nat}
    (hfind : findRegion D nm = .ok (some (b, e))) :
    Replace D nm V = .ok (D.take b ++ V ++ D.drop e, true) := by
  obtain ⟨hbe, hel⟩ := findRegion_bounds hfind
  have hbl : (D.take b).length = b := by
    rw [List.length_take]
    omega
  have hfits1 : (0 : Nat) + (D.take b).length ≤
      (List.replicate (D.length - (e - b) + V.length) (Char.ofNat 0)).length := by
    simp only [List.length_replicate, Nat.zero_add, hbl]
    omega
  have hstep1 : listCopy (List.replicate (D.length - (e - b) + V.length)
        (Char.ofNat 0)) 0 (D.take b) =
      D.take b ++ List.replicate (D.length - (e - b) + V.length - b)
        (Char.ofNat 0) := by
    rw [listCopy_of_fits _ _ _ hfits1]
    rw [List.take_zero, List.nil_append, Nat.zero_add, List.drop_replicate, hbl]
  have hfits2 : b + V.length ≤ (D.take b ++ List.replicate
      (D.length - (e - b) + V.length - b) (Char.ofNat 0)).length := by
    simp only [List.length_append, List.length_replicate, hbl]
    omega
  have hstep2 : listCopy (D.take b ++ List.replicate
        (D.length - (e - b) + V.length - b) (Char.ofNat 0)) b V =
      (D.take b ++ V) ++ List.replicate (D.length - e) (Char.ofNat 0) := by
    rw [listCopy_of_fits _ _ _ hfits2]
    rw [take_len_append hbl, drop_len_append hbl, List.drop_replicate]
    have harith : D.length - (e - b) + V.length - b - V.length = D.length - e := by
      omega
    rw [harith]
  have hY : (D.take b ++ V).length = b + V.length := by
    rw [List.length_append, hbl]
  have hfits3 : (b + V.length) + (D.drop e).length ≤
      ((D.take b ++ V) ++ List.replicate (D.length - e) (Char.ofNat 0)).length := by
    simp only [List.length_append, List.length_replicate, List.length_drop, hbl]
    omega
  have hstep3 : listCopy ((D.take b ++ V) ++ List.replicate (D.length - e)
        (Char.ofNat 0)) (b + V.length) (D.drop e) =
      (D.take b ++ V) ++ D.drop e := by
    rw [listCopy_of_fits _ _ _ hfits3]
    rw [take_len_append hY, drop_len_append hY, List.drop_replicate]
    simp [List.length_drop]
  unfold Replace
  simp only [hfind, hstep1, hstep2, hstep3]

end Region

namespace Region

open Mdcode

/-- Claim C4 (amended): for a document `D` with a located region named `nm`,
`Replace` followed by `Read` returns exactly `V`, provided `V` is empty or
newline-terminated (so the end-marker line behind it still starts at a line
boundary) and no line of `V` itself matches the named or the anonymous
end-marker pattern (otherwise `Read` would stop inside `V`). -/
theorem replace_read_roundtrip (D nm V : List Char) (be e : Nat)
    (hfind : findRegion D nm = .ok (some (be, e)))
    (hV : V = [] ∨ V.getLast? = some '\n')
    (hVnamed : ∀ l ∈ splitLines V, matchNamed endregionKw nm l = false)
    (hVanon : ∀ l ∈ splitLines V, matchEndAnon l = false) :
    Replace D nm V = .ok (D.take be ++ V ++ D.drop e, true) ∧
      Read (D.take be ++ V ++ D.drop e) nm = .ok (V, true) := by
  refine ⟨Replace_found hfind, ?_⟩
  obtain ⟨s, hbegin, es, et, he, hend⟩ := findRegion_some_spec hfind
  obtain ⟨hbee, heel⟩ := findRegion_bounds hfind
  obtain ⟨A, r, B, hsplitD, hAno, hrP, hsA, hbeEq, htake, hdrop⟩ :=
    findFrom_splitLines_decomp hbegin
  set R := D.take be ++ V ++ D.drop e with hR
  have htbl : (D.take be).length = be := by
    rw [List.length_take]
    have := findFrom_bound hbegin
    rw [sumLen_splitLines] at this
    omega
  have hrNL : IsNLine r := by
    refine ⟨splitLines_isLine D r ?_, matchNamed_last hrP⟩
    rw [hsplitD]
    exact List.mem_append_right A (List.mem_cons_self r B)
  have hANL : ∀ x ∈ A ++ [r], IsNLine x := by
    intro x hx
    rcases List.mem_append.mp hx with hx | hx
    · apply splitLines_isNLine D
      rw [hsplitD, dropLast_append_ne A (by simp)]
      exact List.mem_append_left _ hx
    · simp at hx
      subst hx
      exact hrNL
  have hAr_flat : (A ++ [r]).flatten = D.take be := by
    rw [List.flatten_append]
    simp [htake]
  have hsplitR : splitLines R = (A ++ [r]) ++ splitLines (V ++ D.drop e) := by
    rw [hR, ← hAr_flat, List.append_assoc]
    exact splitLines_flatten_append (V ++ D.drop e) hANL
  have hbeR : findFrom (matchNamed regionKw nm) (splitLines R) 0 =
      some (sumLen A, be) := by
    rw [hsplitR]
    rw [show (A ++ [r]) ++ splitLines (V ++ D.drop e) =
      A ++ r :: splitLines (V ++ D.drop e) by simp]
    rw [findFrom_found A r (splitLines (V ++ D.drop e)) 0 hAno hrP]
    have hbe2 : be = sumLen A + r.length := by omega
    simp [hbe2]
  have hdropR : R.drop be = V ++ D.drop e := by
    rw [hR, List.append_assoc]
    have := drop_len_append (by rw [htbl] : (D.take be).length = be)
      (V ++ D.drop e) 0
    simpa using this
  suffices hfindR : findRegion R nm = .ok (some (be, be + V.length)) by
    unfold Read
    simp only [hfindR]
    have hXlen : (D.take be ++ V).length = be + V.length := by
      rw [List.length_append, htbl]
    have htakeR : R.take (be + V.length) = D.take be ++ V := by
      rw [hR]
      exact take_len_append hXlen (D.drop e)
    have hdropV : (D.take be ++ V).drop be = V := by
      have := drop_len_append htbl V 0
      simpa using this
    rw [htakeR, hdropV]
  rcases hend with hEndFound | ⟨hnone, hanonFound⟩
  · obtain ⟨B1, endl, B2, hsplitDrop, hB1no, hendlP, hesEq, _, _, _⟩ :=
      findFrom_splitLines_decomp hEndFound
    have hdd : D.drop e = (D.drop be).drop es := by
      have h3 : e = es + be := by omega
      rw [h3, List.drop_drop, Nat.add_comm]
    have hjoin : D.drop be = B1.flatten ++ (endl :: B2).flatten := by
      conv_lhs => rw [← splitLines_join (D.drop be)]
      rw [hsplitDrop, List.flatten_append]
    have hlenB1 : B1.flatten.length = es := by
      rw [← sumLen_eq_flatten_length]
      omega
    have hDdropE : D.drop e = (endl :: B2).flatten := by
      rw [hdd, hjoin]
      have := drop_len_append hlenB1 ((endl :: B2).flatten) 0
      simpa using this
    have hEB2 : splitLines ((endl :: B2).flatten) = endl :: B2 := by
      apply splitLines_flatten
      · intro x hx
        apply splitLines_isLine (D.drop be)
        rw [hsplitDrop]
        exact List.mem_append_right B1 hx
      · intro x hx
        apply splitLines_isNLine (D.drop be)
        rw [hsplitDrop, dropLast_append_ne B1 (by simp)]
        exact List.mem_append_right B1 hx
    have hW : splitLines (V ++ D.drop e) = splitLines V ++ endl :: B2 := by
      rcases hV with hV0 | hVnl
      · subst hV0
        rw [List.nil_append, hDdropE, hEB2]
        rfl
      · rw [splitLines_append_of_nl hVnl, hDdropE, hEB2]
    have hnmR : findFrom (matchNamed endregionKw nm) (splitLines (R.drop be)) 0 =
        some (V.length, V.length + endl.length) := by
      rw [hdropR, hW]
      rw [findFrom_found (splitLines V) endl B2 0 hVnamed hendlP]
      simp [sumLen_splitLines]
    rw [findRegion_eq]
    simp only [hbeR, hnmR]
  · obtain ⟨B1, endl, B2, hsplitDrop, hB1no, hendlP, hesEq, _, _, _⟩ :=
      findFrom_splitLines_decomp hanonFound
    have hdd : D.drop e = (D.drop be).drop es := by
      have h3 : e = es + be := by omega
      rw [h3, List.drop_drop, Nat.add_comm]
    have hjoin : D.drop be = B1.flatten ++ (endl :: B2).flatten := by
      conv_lhs => rw [← splitLines_join (D.drop be)]
      rw [hsplitDrop, List.flatten_append]
    have hlenB1 : B1.flatten.length = es := by
      rw [← sumLen_eq_flatten_length]
      omega
    have hDdropE : D.drop e = (endl :: B2).flatten := by
      rw [hdd, hjoin]
      have := drop_len_append hlenB1 ((endl :: B2).flatten) 0
      simpa using this
    have hEB2 : splitLines ((endl :: B2).flatten) = endl :: B2 := by
      apply splitLines_flatten
      · intro x hx
        apply splitLines_isLine (D.drop be)
        rw [hsplitDrop]
        exact List.mem_append_right B1 hx
      · intro x hx
        apply splitLines_isNLine (D.drop be)
        rw [hsplitDrop, dropLast_append_ne B1 (by simp)]
        exact List.mem_append_right B1 hx
    have hW : splitLines (V ++ D.drop e) = splitLines V ++ endl :: B2 := by
      rcases hV with hV0 | hVnl
      · subst hV0
        rw [List.nil_append, hDdropE, hEB2]
        rfl
      · rw [splitLines_append_of_nl hVnl, hDdropE, hEB2]
    have hnmnone : findFrom (matchNamed endregionKw nm)
        (splitLines (R.drop be)) 0 = none := by
      rw [hdropR, hW]
      apply findFrom_eq_none.mpr
      intro x hx
      rcases List.mem_append.mp hx with hx | hx
      · exact hVnamed x hx
      · apply findFrom_eq_none.mp hnone
        rw [hsplitDrop]
        exact List.mem_append_right B1 hx
    have hanonR : findFrom matchEndAnon (splitLines (R.drop be)) 0 =
        some (V.length, V.length + endl.length) := by
      rw [hdropR, hW]
      rw [findFrom_found (splitLines V) endl B2 0 hVanon hendlP]
      simp [sumLen_splitLines]
    rw [findRegion_eq]
    simp only [hbeR, hnmnone, hanonR]

end Region

namespace Region

/-- Claim C4, counterexample to the unconditional statement: writing a value
with no trailing newline glues the anonymous end-marker line onto the last
line of the value, so the end marker no longer starts a line and a subsequent
`Read` reports the region as not found instead of returning the value. -/
theorem replace_read_counterexample :
    Replace "//#region x\nold\n//#endregion\n".toList "x".toList "abc".toList
        = .ok ("//#region x\nabc//#endregion\n".toList, true) ∧
      Read "//#region x\nabc//#endregion\n".toList "x".toList
        = .ok ([], false) ∧
      ("" : String).toList ≠ "abc".toList := by
  refine ⟨rfl, rfl, by decide⟩

end Region

namespace Region

/-- Witness for the amended C4 roundtrip: a newline-terminated value whose
single line matches neither end-marker pattern is written and read back
verbatim. -/
theorem replace_read_roundtrip_witness :
    Replace "//#region x\nold\n//#endregion\n".toList "x".toList "new\n".toList
        = .ok ("//#region x\nnew\n//#endregion\n".toList, true) ∧
      Read "//#region x\nnew\n//#endregion\n".toList "x".toList
        = .ok ("new\n".toList, true) := by
  have h := replace_read_roundtrip "//#region x\nold\n//#endregion\n".toList
    "x".toList "new\n".toList 12 16 rfl (Or.inr (by decide)) (by decide)
    (by decide)
  have hRe : ("//#region x\nold\n//#endregion\n".toList).take 12 ++
      "new\n".toList ++ ("//#region x\nold\n//#endregion\n".toList).drop 16 =
      "//#region x\nnew\n//#endregion\n".toList := by decide
  rw [hRe] at h
  exact h

end Region

namespace Region

theorem specialByte_high {b : Nat} (h : 128 ≤ b) : specialByte b = false := by
  simp only [specialByte, decide_eq_false_iff_not]
  omega

theorem quoteMetaBytes_cons_high {b : Nat} (h : 128 ≤ b) (r : List Nat) :
    quoteMetaBytes (b :: r) = b :: quoteMetaBytes r := by
  simp [quoteMetaBytes, specialByte_high h]

theorem utf8Valid_cons1 {b : Nat} (hb : b ≤ 127) (r : List Nat) :
    utf8Valid (b :: r) = utf8Valid r := by
  rcases r with _ | ⟨c1, _ | ⟨c2, _ | ⟨c3, rest⟩⟩⟩ <;> simp [utf8Valid, hb]

theorem utf8Valid_cons2 {b : Nat} (hb1 : ¬ b ≤ 127) (hb2 : 194 ≤ b ∧ b ≤ 223)
    (c1 : Nat) (r : List Nat) :
    utf8Valid (b :: c1 :: r) = (utf8Cont c1 && utf8Valid r) := by
  rcases r with _ | ⟨c2, _ | ⟨c3, rest⟩⟩ <;> simp [utf8Valid, hb1, hb2]

theorem utf8Valid_consE0 (c1 c2 : Nat) (r : List Nat) :
    utf8Valid (224 :: c1 :: c2 :: r) =
      (decide (160 ≤ c1 ∧ c1 ≤ 191) && utf8Cont c2 && utf8Valid r) := by
  rcases r with _ | ⟨c3, rest⟩ <;> simp [utf8Valid]

theorem utf8Valid_cons3m {b : Nat} (hb : 225 ≤ b ∧ b ≤ 236) (c1 c2 : Nat)
    (r : List Nat) :
    utf8Valid (b :: c1 :: c2 :: r) = (utf8Cont c1 && utf8Cont c2 && utf8Valid r) := by
  have hb1 : ¬ b ≤ 127 := by omega
  have hb2 : ¬ (194 ≤ b ∧ b ≤ 223) := by omega
  have hb3 : ¬ b = 224 := by omega
  rcases r with _ | ⟨c3, rest⟩ <;> simp [utf8Valid, hb1, hb2, hb3, hb]

theorem utf8Valid_consED (c1 c2 : Nat) (r : List Nat) :
    utf8Valid (237 :: c1 :: c2 :: r) =
      (decide (128 ≤ c1 ∧ c1 ≤ 159) && utf8Cont c2 && utf8Valid r) := by
  rcases r with _ | ⟨c3, rest⟩ <;> simp [utf8Valid]

theorem utf8Valid_cons3h {b : Nat} (hb : 238 ≤ b ∧ b ≤ 239) (c1 c2 : Nat)
    (r : List Nat) :
    utf8Valid (b :: c1 :: c2 :: r) = (utf8Cont c1 && utf8Cont c2 && utf8Valid r) := by
  have hb1 : ¬ b ≤ 127 := by omega
  have hb2 : ¬ (194 ≤ b ∧ b ≤ 223) := by omega
  have hb3 : ¬ b = 224 := by omega
  have hb4 : ¬ (225 ≤ b ∧ b ≤ 236) := by omega
  have hb5 : ¬ b = 237 := by omega
  rcases r with _ | ⟨c3, rest⟩ <;> simp [utf8Valid, hb1, hb2, hb3, hb4, hb5, hb]

theorem utf8Valid_consF0 (c1 c2 c3 : Nat) (r : List Nat) :
    utf8Valid (240 :: c1 :: c2 :: c3 :: r) =
      (decide (144 ≤ c1 ∧ c1 ≤ 191) && utf8Cont c2 && utf8Cont c3 && utf8Valid r) := by
  simp [utf8Valid]

theorem utf8Valid_cons4m {b : Nat} (hb : 241 ≤ b ∧ b ≤ 243) (c1 c2 c3 : Nat)
    (r : List Nat) :
    utf8Valid (b :: c1 :: c2 :: c3 :: r) =
      (utf8Cont c1 && utf8Cont c2 && utf8Cont c3 && utf8Valid r) := by
  have hb1 : ¬ b ≤ 127 := by omega
  have hb2 : ¬ (194 ≤ b ∧ b ≤ 223) := by omega
  have hb3 : ¬ b = 224 := by omega
  have hb4 : ¬ (225 ≤ b ∧ b ≤ 236) := by omega
  have hb5 : ¬ b = 237 := by omega
  have hb6 : ¬ (238 ≤ b ∧ b ≤ 239) := by omega
  have hb7 : ¬ b = 240 := by omega
  simp [utf8Valid, hb1, hb2, hb3, hb4, hb5, hb6, hb7, hb]

theorem utf8Valid_consF4 (c1 c2 c3 : Nat) (r : List Nat) :
    utf8Valid (244 :: c1 :: c2 :: c3 :: r) =
      (decide (128 ≤ c1 ∧ c1 ≤ 143) && utf8Cont c2 && utf8Cont c3 && utf8Valid r) := by
  simp [utf8Valid]

theorem utf8Valid_low_append {A : List Nat} (h : ∀ b ∈ A, b ≤ 127) (X : List Nat) :
    utf8Valid (A ++ X) = utf8Valid X := by
  induction A with
  | nil => rfl
  | cons b r ih =>
    have hb : b ≤ 127 := h b (List.mem_cons_self b r)
    have hr : ∀ x ∈ r, x ≤ 127 := fun x hx => h x (List.mem_cons_of_mem b hx)
    rw [List.cons_append, utf8Valid_cons1 hb]
    exact ih hr

theorem utf8Valid_quoteMeta_append {S : List Nat} (hS : utf8Valid S = true) :
    ∀ X : List Nat, utf8Valid X = true → utf8Valid (quoteMetaBytes X ++ S) = true := by
  intro X
  induction X using utf8Valid.induct with
  | case1 =>
    intro _
    simpa [quoteMetaBytes] using hS
  | case2 b rest hb ih =>
    intro h
    rw [utf8Valid_cons1 hb] at h
    simp only [quoteMetaBytes]
    by_cases hsp : specialByte b
    · rw [if_pos hsp, List.cons_append, List.cons_append,
        utf8Valid_cons1 (by omega : (92 : Nat) ≤ 127), utf8Valid_cons1 hb]
      exact ih h
    · rw [if_neg hsp, List.cons_append, utf8Valid_cons1 hb]
      exact ih h
  | case3 b hb =>
    intro h
    simp [utf8Valid, hb] at h
  | case4 b hb1 c1 rest hb2 ih =>
    intro h
    rw [utf8Valid_cons2 hb1 hb2] at h
    simp only [Bool.and_eq_true, utf8Cont, decide_eq_true_eq] at h
    obtain ⟨⟨hc1a, hc1b⟩, hrest⟩ := h
    rw [quoteMetaBytes_cons_high (by omega), quoteMetaBytes_cons_high (by omega),
      List.cons_append, List.cons_append, utf8Valid_cons2 hb1 hb2]
    simp only [Bool.and_eq_true, utf8Cont, decide_eq_true_eq]
    exact ⟨⟨hc1a, hc1b⟩, ih hrest⟩
  | case5 b hb1 c1 hb2 =>
    intro h
    simp [utf8Valid, hb1, hb2] at h
  | case6 c1 c2 rest h1 h2 ih =>
    intro h
    rw [utf8Valid_consE0] at h
    simp only [Bool.and_eq_true, utf8Cont, decide_eq_true_eq] at h
    obtain ⟨⟨⟨hc1a, hc1b⟩, hc2a, hc2b⟩, hrest⟩ := h
    rw [quoteMetaBytes_cons_high (by omega), quoteMetaBytes_cons_high (by omega),
      quoteMetaBytes_cons_high (by omega), List.cons_append, List.cons_append,
      List.cons_append, utf8Valid_consE0]
    simp only [Bool.and_eq_true, utf8Cont, decide_eq_true_eq]
    exact ⟨⟨⟨hc1a, hc1b⟩, hc2a, hc2b⟩, ih hrest⟩
  | case7 b hb1 c1 hb2 c2 rest hb3 hb4 ih =>
    intro h
    rw [utf8Valid_cons3m hb4] at h
    simp only [Bool.and_eq_true, utf8Cont, decide_eq_true_eq] at h
    obtain ⟨⟨⟨hc1a, hc1b⟩, hc2a, hc2b⟩, hrest⟩ := h
    rw [quoteMetaBytes_cons_high (by omega), quoteMetaBytes_cons_high (by omega),
      quoteMetaBytes_cons_high (by omega), List.cons_append, List.cons_append,
      List.cons_append, utf8Valid_cons3m hb4]
    simp only [Bool.and_eq_true, utf8Cont, decide_eq_true_eq]
    exact ⟨⟨⟨hc1a, hc1b⟩, hc2a, hc2b⟩, ih hrest⟩
  | case8 c1 c2 rest h1 h2 h3 h4 ih =>
    intro h
    rw [utf8Valid_consED] at h
    simp only [Bool.and_eq_true, utf8Cont, decide_eq_true_eq] at h
    obtain ⟨⟨⟨hc1a, hc1b⟩, hc2a, hc2b⟩, hrest⟩ := h
    rw [quoteMetaBytes_cons_high (by omega), quoteMetaBytes_cons_high (by omega),
      quoteMetaBytes_cons_high (by omega), List.cons_append, List.cons_append,
      List.cons_append, utf8Valid_consED]
    simp only [Bool.and_eq_true, utf8Cont, decide_eq_true_eq]
    exact ⟨⟨⟨hc1a, hc1b⟩, hc2a, hc2b⟩, ih hrest⟩
  | case9 b hb1 c1 hb2 c2 rest hb3 hb4 hb5 hb6 ih =>
    intro h
    rw [utf8Valid_cons3h hb6] at h
    simp only [Bool.and_eq_true, utf8Cont, decide_eq_true_eq] at h
    obtain ⟨⟨⟨hc1a, hc1b⟩, hc2a, hc2b⟩, hrest⟩ := h
    rw [quoteMetaBytes_cons_high (by omega), quoteMetaBytes_cons_high (by omega),
      quoteMetaBytes_cons_high (by omega), List.cons_append, List.cons_append,
      List.cons_append, utf8Valid_cons3h hb6]
    simp only [Bool.and_eq_true, utf8Cont, decide_eq_true_eq]
    exact ⟨⟨⟨hc1a, hc1b⟩, hc2a, hc2b⟩, ih hrest⟩
  | case10 b hb1 c1 hb2 c2 hb3 hb4 hb5 hb6 =>
    intro h
    simp [utf8Valid, hb1, hb2, hb3, hb4, hb5, hb6] at h
  | case11 c1 c2 c3 rest h1 h2 h3 h4 h5 h6 ih =>
    intro h
    rw [utf8Valid_consF0] at h
    simp only [Bool.and_eq_true, utf8Cont, decide_eq_true_eq] at h
    obtain ⟨⟨⟨⟨hc1a, hc1b⟩, hc2a, hc2b⟩, hc3a, hc3b⟩, hrest⟩ := h
    rw [quoteMetaBytes_cons_high (by omega), quoteMetaBytes_cons_high (by omega),
      quoteMetaBytes_cons_high (by omega), quoteMetaBytes_cons_high (by omega),
      List.cons_append, List.cons_append, List.cons_append, List.cons_append,
      utf8Valid_consF0]
    simp only [Bool.and_eq_true, utf8Cont, decide_eq_true_eq]
    exact ⟨⟨⟨⟨hc1a, hc1b⟩, hc2a, hc2b⟩, hc3a, hc3b⟩, ih hrest⟩
  | case12 b hb1 c1 hb2 c2 hb3 hb4 hb5 hb6 c3 rest hb7 hb8 ih =>
    intro h
    rw [utf8Valid_cons4m hb8] at h
    simp only [Bool.and_eq_true, utf8Cont, decide_eq_true_eq] at h
    obtain ⟨⟨⟨⟨hc1a, hc1b⟩, hc2a, hc2b⟩, hc3a, hc3b⟩, hrest⟩ := h
    rw [quoteMetaBytes_cons_high (by omega), quoteMetaBytes_cons_high (by omega),
      quoteMetaBytes_cons_high (by omega), quoteMetaBytes_cons_high (by omega),
      List.cons_append, List.cons_append, List.cons_append, List.cons_append,
      utf8Valid_cons4m hb8]
    simp only [Bool.and_eq_true, utf8Cont, decide_eq_true_eq]
    exact ⟨⟨⟨⟨hc1a, hc1b⟩, hc2a, hc2b⟩, hc3a, hc3b⟩, ih hrest⟩
  | case13 c1 c2 c3 rest h1 h2 h3 h4 h5 h6 h7 h8 ih =>
    intro h
    rw [utf8Valid_consF4] at h
    simp only [Bool.and_eq_true, utf8Cont, decide_eq_true_eq] at h
    obtain ⟨⟨⟨⟨hc1a, hc1b⟩, hc2a, hc2b⟩, hc3a, hc3b⟩, hrest⟩ := h
    rw [quoteMetaBytes_cons_high (by omega), quoteMetaBytes_cons_high (by omega),
      quoteMetaBytes_cons_high (by omega), quoteMetaBytes_cons_high (by omega),
      List.cons_append, List.cons_append, List.cons_append, List.cons_append,
      utf8Valid_consF4]
    simp only [Bool.and_eq_true, utf8Cont, decide_eq_true_eq]
    exact ⟨⟨⟨⟨hc1a, hc1b⟩, hc2a, hc2b⟩, hc3a, hc3b⟩, ih hrest⟩
  | case14 b hb1 c1 hb2 c2 hb3 hb4 hb5 hb6 c3 rest hb7 hb8 hb9 =>
    intro h
    simp [utf8Valid, hb1, hb2, hb3, hb4, hb5, hb6, hb7, hb8, hb9] at h

/-- Claim C9 (amended): for every name whose bytes are valid UTF-8 — every
name obtainable from a Go string literal or well-formed text — the
regex-compilation error branches of `findRegion` are unreachable, because
`regexp.QuoteMeta` escapes every metacharacter and preserves UTF-8
validity, so `Read` and `Replace` return a nil error for every source and
every value.  For a name with invalid UTF-8 bytes the compile step does
fail and both functions return that error (see the counterexample). -/
theorem read_replace_never_error_utf8 (source : List Char) (nameB : List Nat)
    (value : List Char) (h : utf8Valid nameB = true) :
    (∃ r, findRegionB source nameB = .ok r) ∧
      (∃ r, ReadB source nameB = .ok r) ∧
      (∃ r, ReplaceB source nameB value = .ok r) := by
  have hpat : ∀ pre : List Nat, (∀ b ∈ pre, b ≤ 127) →
      utf8Valid (pre ++ quoteMetaBytes nameB ++ markerSuffixBytes) = true := by
    intro pre hpre
    rw [List.append_assoc, utf8Valid_low_append hpre]
    exact utf8Valid_quoteMeta_append (by decide) nameB h
  have h1 : compileB regionPrefixBytes nameB = .ok () := by
    unfold compileB
    rw [if_pos (hpat regionPrefixBytes (by decide))]
  have h2 : compileB namedendPrefixBytes nameB = .ok () := by
    unfold compileB
    rw [if_pos (hpat namedendPrefixBytes (by decide))]
  obtain ⟨⟨r1, hr1⟩, -, -⟩ := findRegion_read_replace_ok source (utf8Dec nameB) value
  have hfB : findRegionB source nameB = .ok r1 := by
    unfold findRegionB
    simp only [h1, h2]
    exact hr1
  refine ⟨⟨r1, hfB⟩, ?_, ?_⟩
  · unfold ReadB
    rw [hfB]
    rcases r1 with _ | ⟨b, e⟩
    · exact ⟨_, rfl⟩
    · exact ⟨_, rfl⟩
  · unfold ReplaceB
    rw [hfB]
    rcases r1 with _ | ⟨b, e⟩
    · exact ⟨_, rfl⟩
    · exact ⟨_, rfl⟩

/-- Witness for the amended C9: the valid one-byte name `x` never produces
an error. -/
theorem read_replace_never_error_utf8_witness :
    (∃ r, findRegionB "x\n".toList [120] = .ok r) ∧
      (∃ r, ReadB "x\n".toList [120] = .ok r) ∧
      (∃ r, ReplaceB "x\n".toList [120] [] = .ok r) :=
  read_replace_never_error_utf8 "x\n".toList [120] [] (by decide)

/-- Claim C9, counterexample to the unconditional statement: Go strings are
byte strings and need not be valid UTF-8.  `regexp.QuoteMeta` passes the
byte 0xff through unescaped, the assembled marker pattern is then not valid
UTF-8, `regexp.Compile` rejects it with `ErrInvalidUTF8`, and `Read` and
`Replace` both return that compile error for the one-byte name 0xff — the
error branches are reachable. -/
theorem read_replace_invalid_name_counterexample :
    ReadB "x\n".toList [255] = .error Err.badPattern ∧
      ReplaceB "x\n".toList [255] "y\n".toList = .error Err.badPattern := by
  constructor
  · rfl
  · rfl

end Region
